import Mathlib

/-!
Verification of the TJSON tagged-codec library (`src/index.js`) against its
natural-language specification.

The library extends JSON with a registry of tagged codecs.  `stringify` runs
`JSON.stringify(value, TJSON.replacer, space)`: the replacer receives every
node of object kind and scans each of its own enumerable keys against the
registered replacer entries, substituting the first hit by
`tag ++ encodedPayload`.  `parse` runs `JSON.parse(text, TJSON.reviver)`:
the reviver scans every string scalar against the registered reviver entries
and substitutes the first entry whose tag is a prefix and whose decoder
yields a truthy result.

The shallow embedding below models:
  * JavaScript values restricted to the types the library manipulates
    (`JSVal`), with JS numbers modelled as exact integers plus `nan`
    (fractional doubles, signed zero and infinities are outside the claims);
  * the external format bridge (`JSON.stringify` emission and `JSON.parse`
    parsing, restricted to the value domain above);
  * the codec registry, its two traversals, and the six standard codecs;
  * the registry-mutating public API (`add` builder chains, `modify`,
    `remove`, `activateStandards`) as a transition system on registry
    states.

Several functions take an explicit `Nat` fuel so that they are plain
structural recursions (and hence compute inside the kernel); fuel
exhaustion is reported as `none`/a designated default and is a modelling
artifact that no theorem below reaches — every lemma either supplies
sufficient fuel or holds for all fuels.
-/

set_option maxHeartbeats 1600000

namespace TJSONModel

/-! ## Digits and numeric text -/

/-- Digit character for values `0`–`35`: `0`–`9` then lowercase `a`–`z`,
the digit alphabet of JavaScript `Number.prototype.toString(36)` (and of
decimal printing for digits below 10). -/
def digitChar36 (d : Nat) : Char :=
  if d < 10 then Char.ofNat (48 + d) else Char.ofNat (87 + d)

/-- Fuelled digit expansion: digits of `n` in base `b`, most significant
first.  `natDigits` supplies fuel `n`, which always suffices. -/
def natDigitsF : Nat → Nat → Nat → List Char
  | 0, _, n => [digitChar36 n]
  | f + 1, b, n =>
    if b ≤ 1 then []
    else if n < b then [digitChar36 n]
    else natDigitsF f b (n / b) ++ [digitChar36 (n % b)]

/-- Digits of `n` in base `b` (most significant first), as JavaScript's
number-to-string conversion renders integers. -/
def natDigits (b : Nat) (n : Nat) : List Char := natDigitsF n b n

/-- Numeric value of a base-36 digit character, accepting both cases as
JavaScript `parseInt` does. -/
def charToDigit36 (c : Char) : Option Nat :=
  if 48 ≤ c.toNat ∧ c.toNat ≤ 57 then some (c.toNat - 48)
  else if 97 ≤ c.toNat ∧ c.toNat ≤ 122 then some (c.toNat - 87)
  else if 65 ≤ c.toNat ∧ c.toNat ≤ 90 then some (c.toNat - 55)
  else none

/-- Is `c` a digit in base `b` (for `b ≤ 36`)? -/
def isDigitB (b : Nat) (c : Char) : Bool :=
  match charToDigit36 c with
  | some d => decide (d < b)
  | none => false

/-- Value of a digit string in base `b`, most significant first. -/
def digitsToNat (b : Nat) (ds : List Char) : Nat :=
  ds.foldl (fun a c => a * b + ((charToDigit36 c).getD 0)) 0

/-- Decimal text of an integer, as JavaScript renders integer numbers and
BigInt values. -/
def intToDecimal (i : Int) : List Char :=
  if i < 0 then '-' :: natDigits 10 i.natAbs else natDigits 10 i.natAbs

/-- Base-36 text of an integer, as `Number.prototype.toString(36)` renders
integer numbers (lowercase digits, `-` sign). -/
def intToBase36 (i : Int) : String :=
  ⟨if i < 0 then '-' :: natDigits 36 i.natAbs else natDigits 36 i.natAbs⟩

/-- The whitespace characters relevant to the texts in this development
(JavaScript trims a larger Unicode class; only these occur here). -/
def isJsWs (c : Char) : Bool :=
  c == ' ' || c == '\t' || c == '\n' || c == '\r'

/-- Model of `parseInt(s, 36)`: skip leading whitespace, read an optional
sign, then the longest prefix of base-36 digits (case-insensitive); `none`
models the `NaN` result when no digit is present.  Trailing non-digit
characters are ignored, as in JavaScript. -/
def parseInt36 (s : String) : Option Int :=
  let cs := s.data.dropWhile isJsWs
  let sgn : Bool × List Char :=
    match cs with
    | '-' :: t => (true, t)
    | '+' :: t => (false, t)
    | _ => (false, cs)
  let ds := sgn.2.takeWhile (isDigitB 36)
  if ds.isEmpty then none
  else
    let v : Int := Int.ofNat (digitsToNat 36 ds)
    some (if sgn.1 then -v else v)

/-- Model of the `BigInt(string)` conversion used by the standard
big-integer reviver: whitespace is trimmed on both sides, the empty string
converts to `0n`, otherwise an optional sign followed by decimal digits
consuming the whole remainder is required; `none` models the `SyntaxError`
thrown on any other input (which aborts the enclosing `JSON.parse` in
JavaScript, and the enclosing traversal here).  The `0x`/`0o`/`0b` prefixes
JavaScript also accepts never occur in payloads this library produces. -/
def parseBigInt (s : String) : Option Int :=
  let cs := ((s.data.dropWhile isJsWs).reverse.dropWhile isJsWs).reverse
  if cs.isEmpty then some 0
  else
    let sgn : Bool × List Char :=
      match cs with
      | '-' :: t => (true, t)
      | '+' :: t => (false, t)
      | _ => (false, cs)
    if sgn.2.isEmpty then none
    else if sgn.2.all (isDigitB 10) then
      let v : Int := Int.ofNat (digitsToNat 10 sgn.2)
      some (if sgn.1 then -v else v)
    else none

/-! ## The value domain -/

/-- JavaScript values, restricted to the types the library manipulates.
JS numbers are modelled as exact integers plus `nan`; fractional doubles,
signed zero and infinities are outside the scope of the claims.  `date none`
models an Invalid Date (a `Date` whose time value is `NaN`). -/
inductive JSVal where
  | num (n : Int)
  | nan
  | str (s : String)
  | bool (b : Bool)
  | null
  | bigint (i : Int)
  | date (ms : Option Int)
  | regexp (source : String) (flags : String)
  | jsMap (entries : List (JSVal × JSVal))
  | jsSet (elems : List JSVal)
  | arr (elems : List JSVal)
  | obj (fields : List (String × JSVal))
deriving Repr

/-- JavaScript truthiness on the value domain: `false`, `0`, `NaN`, `""`,
`null` and `0n` are falsy, every other value (including every object, and
in particular an Invalid Date) is truthy. -/
def truthy : JSVal → Bool
  | .num n => n != 0
  | .nan => false
  | .str s => s != ""
  | .bool b => b
  | .null => false
  | .bigint i => i != 0
  | _ => true

/-- Fuelled JavaScript string coercion (`"" + v`) on the value domain, used
when the replacer computes `replacer.tag + success`.  Fuel is consumed only
when flattening nested arrays (`Array.prototype.toString` joins elements by
commas, rendering `null` as the empty string); the standard codecs only
ever coerce strings and BigInt values.  The `date` rendering (locale- and
timezone-dependent in JavaScript) is abstracted by a placeholder that no
theorem below reaches. -/
def jsToStringF : Nat → JSVal → String
  | _, .num n => ⟨intToDecimal n⟩
  | _, .nan => "NaN"
  | _, .str s => s
  | _, .bool b => if b then "true" else "false"
  | _, .null => "null"
  | _, .bigint i => ⟨intToDecimal i⟩
  | _, .date _ => "[object Date]"
  | _, .regexp src fl => "/" ++ src ++ "/" ++ fl
  | _, .jsMap _ => "[object Map]"
  | _, .jsSet _ => "[object Set]"
  | 0, .arr _ => ""
  | f + 1, .arr xs =>
    String.intercalate ","
      (xs.map (fun x => match x with | .null => "" | y => jsToStringF f y))
  | _, .obj _ => "[object Object]"

/-- The SameValueZero comparison used by `Map` keys and `Set` members.
Primitives compare structurally (`NaN` equals `NaN`); values of object kind
compare by reference in JavaScript, and the comparisons performed below
only ever compare distinct freshly-parsed objects, so object-kinded
operands compare unequal here. -/
def sameValueZero : JSVal → JSVal → Bool
  | .num a, .num b => a == b
  | .nan, .nan => true
  | .str a, .str b => a == b
  | .bool a, .bool b => a == b
  | .null, .null => true
  | .bigint a, .bigint b => a == b
  | _, _ => false

/-- `Map.prototype.set` on an entry list: an existing SameValueZero-equal
key has its value updated in place, otherwise the pair is appended. -/
def mapSetPair (es : List (JSVal × JSVal)) (k v : JSVal) : List (JSVal × JSVal) :=
  if es.any (fun p => sameValueZero p.1 k) then
    es.map (fun p => if sameValueZero p.1 k then (p.1, v) else p)
  else es ++ [(k, v)]

/-- `new Map(pairs)`: insert each pair in order. -/
def mkMapEntries (ps : List (JSVal × JSVal)) : List (JSVal × JSVal) :=
  ps.foldl (fun es p => mapSetPair es p.1 p.2) []

/-- `Set.prototype.add`: append unless a SameValueZero-equal member
exists. -/
def setAdd (es : List JSVal) (x : JSVal) : List JSVal :=
  if es.any (fun y => sameValueZero y x) then es else es ++ [x]

/-- `new Set(xs)`: add each element in order, eliminating duplicates. -/
def mkSetElems (xs : List JSVal) : List JSVal := xs.foldl setAdd []

/-- One step of the `Map` constructor's entry adaptation: an entry must be
of object kind (otherwise `TypeError`, modelled by `none`), and its `0`/`1`
properties become the key and value.  Entries whose components would be
`undefined` are not modelled (no theorem reaches them). -/
def entryToPair : JSVal → Option (JSVal × JSVal)
  | .arr (a :: b :: _) => some (a, b)
  | .obj fs =>
    match fs.lookup "0", fs.lookup "1" with
    | some a, some b => some (a, b)
    | _, _ => none
  | _ => none

/-- The iterable protocol as the `Map`/`Set` constructors consume it:
arrays iterate their elements, strings iterate their characters; any other
argument raises `TypeError` (modelled by `none`). -/
def iterElems : JSVal → Option (List JSVal)
  | .arr xs => some xs
  | .str s => some (s.data.map fun c => .str ⟨[c]⟩)
  | _ => none

/-! ## JSON emission (the format bridge, serializer side) -/

/-- JSON string quoting of one character, as ECMAScript `QuoteJSONString`
escapes it: `"` and `\` get a backslash escape, the five named control
characters get their short escapes, the other control characters get a
`\u00XX` escape (lowercase hex), everything else is emitted verbatim. -/
def escapeChar (c : Char) : List Char :=
  if c = '"' then ['\\', '"']
  else if c = '\\' then ['\\', '\\']
  else if c.toNat < 32 then
    match c.toNat with
    | 8 => ['\\', 'b']
    | 9 => ['\\', 't']
    | 10 => ['\\', 'n']
    | 12 => ['\\', 'f']
    | 13 => ['\\', 'r']
    | n => ['\\', 'u', '0', '0', digitChar36 (n / 16), digitChar36 (n % 16)]
  else [c]

/-- JSON string quoting of a character sequence. -/
def quoteChars : List Char → List Char
  | [] => []
  | c :: t => escapeChar c ++ quoteChars t

/-- The JSON text `JSON.stringify` produces (compact form, i.e. without the
`space` argument) for a value already processed by the replacer pass;
fuelled by tree depth.  `none` additionally marks the cases no theorem
below reaches: a leftover `BigInt` (JavaScript throws `TypeError`) and a
leftover `Date` (JavaScript would render its `toJSON` ISO string, which is
not modelled).  Leftover `RegExp`, `Map` and `Set` values stringify to the
empty-object text as in JavaScript (no enumerable own properties). -/
def emitValF : Nat → JSVal → Option (List Char)
  | 0, _ => none
  | f + 1, v =>
    match v with
    | .num n => some (intToDecimal n)
    | .nan => some ['n', 'u', 'l', 'l']
    | .str s => some ('"' :: (quoteChars s.data ++ ['"']))
    | .bool true => some ['t', 'r', 'u', 'e']
    | .bool false => some ['f', 'a', 'l', 's', 'e']
    | .null => some ['n', 'u', 'l', 'l']
    | .bigint _ => none
    | .date _ => none
    | .regexp _ _ => some ['\x7b', '\x7d']
    | .jsMap _ => some ['\x7b', '\x7d']
    | .jsSet _ => some ['\x7b', '\x7d']
    | .arr xs =>
      (xs.mapM (fun x => emitValF f x)).map
        (fun ls => '[' :: (List.intercalate [','] ls ++ [']']))
    | .obj fs =>
      (fs.mapM (fun (kv : String × JSVal) => (emitValF f kv.2).map
          (fun b => '"' :: (quoteChars kv.1.data ++ '"' :: ':' :: b)))).map
        (fun ls => '\x7b' :: (List.intercalate [','] ls ++ ['\x7d']))

mutual

/-- Trees built only from JSON-native scalars (numbers, strings, booleans,
null) and objects/arrays.  `nan` is excluded: plain JSON already fails to
round-trip it (`JSON.stringify(NaN)` is the text `null`). -/
def jsonNative : JSVal → Bool
  | .num _ => true
  | .str _ => true
  | .bool _ => true
  | .null => true
  | .arr xs => jsonNativeList xs
  | .obj fs => jsonNativeFields fs
  | _ => false

def jsonNativeList : List JSVal → Bool
  | [] => true
  | x :: t => jsonNative x && jsonNativeList t

def jsonNativeFields : List (String × JSVal) → Bool
  | [] => true
  | (_, v) :: t => jsonNative v && jsonNativeFields t

end

mutual

/-- Canonical fuel bound for a value: strictly larger than the bound of
every subterm, and large enough for both the traversals and the parser on
the emitted text. -/
def countV : JSVal → Nat
  | .arr xs => 1 + countElems xs
  | .obj fs => 1 + countFields fs
  | .jsMap es => 1 + countPairs es
  | .jsSet xs => 1 + countElems xs
  | _ => 1

def countElems : List JSVal → Nat
  | [] => 0
  | x :: t => 1 + countV x + countElems t

def countFields : List (String × JSVal) → Nat
  | [] => 0
  | (_, v) :: t => 1 + countV v + countFields t

def countPairs : List (JSVal × JSVal) → Nat
  | [] => 0
  | (k, v) :: t => 1 + countV k + countV v + countPairs t

end

/-! ## JSON parsing (the format bridge, parser side) -/

/-- Skip JSON whitespace (space, tab, line feed, carriage return). -/
def skipWs (cs : List Char) : List Char := cs.dropWhile isJsWs

/-- Value of a hexadecimal digit; JSON `\u` escapes accept both cases. -/
def hexVal (c : Char) : Option Nat :=
  match charToDigit36 c with
  | some d => if d < 16 then some d else none
  | none => none

/-- Parse the body of a JSON string after the opening quote (fuelled by the
input length), returning the decoded characters and the input following the
closing quote.  Raw control characters and malformed escapes are syntax
errors (`none`).  A `\u` escape denoting a UTF-16 surrogate half would pair
with a following escape in JavaScript; the quoter never produces such
escapes and `Char.ofNat`'s replacement value stands in for them here. -/
def parseStringBody : Nat → List Char → Option (List Char × List Char)
  | 0, _ => none
  | _ + 1, [] => none
  | f + 1, c :: r =>
    if c = '"' then some ([], r)
    else if c = '\\' then
      match r with
      | 'u' :: h1 :: h2 :: h3 :: h4 :: r2 =>
        match hexVal h1, hexVal h2, hexVal h3, hexVal h4 with
        | some d1, some d2, some d3, some d4 =>
          (parseStringBody f r2).map (fun p =>
            (Char.ofNat (((d1 * 16 + d2) * 16 + d3) * 16 + d4) :: p.1, p.2))
        | _, _, _, _ => none
      | e :: r2 =>
        match (match e with
          | '"' => some '"'
          | '\\' => some '\\'
          | '/' => some '/'
          | 'b' => some (Char.ofNat 8)
          | 'f' => some (Char.ofNat 12)
          | 'n' => some '\n'
          | 'r' => some '\r'
          | 't' => some '\t'
          | _ => none) with
        | some d => (parseStringBody f r2).map (fun p => (d :: p.1, p.2))
        | none => none
      | [] => none
    else if c.toNat < 32 then none
    else (parseStringBody f r).map (fun p => (c :: p.1, p.2))

/-- JSON number parsing, restricted to the integers this development uses:
an optional minus sign and a digit run with no redundant leading zero.  A
following `.`, `e` or `E` begins a fractional/exponent form whose double
semantics is not modelled, so it yields `none`; the emitter never produces
such texts.  (`-0`, which JavaScript distinguishes from `0`, is likewise
collapsed to `0`; the emitter never produces the text `-0`.) -/
def parseJNum (cs : List Char) : Option (JSVal × List Char) :=
  let sgn : Bool × List Char :=
    if cs.head? = some '-' then (true, cs.tail) else (false, cs)
  let ds := sgn.2.takeWhile (isDigitB 10)
  let rest := sgn.2.dropWhile (isDigitB 10)
  if ds.isEmpty then none
  else if 1 < ds.length ∧ ds.head? = some '0' then none
  else
    match rest with
    | '.' :: _ => none
    | 'e' :: _ => none
    | 'E' :: _ => none
    | _ =>
      let v : Int := Int.ofNat (digitsToNat 10 ds)
      some (.num (if sgn.1 then -v else v), rest)

/-- Parse the non-empty element list of a JSON array, up to and including
the closing bracket, with `pv` parsing each element (the value parser at
the enclosing fuel). -/
def parseElemsWith (pv : List Char → Option (JSVal × List Char)) :
    Nat → List Char → Option (List JSVal × List Char)
  | 0, _ => none
  | f + 1, cs =>
    (pv cs).bind (fun p =>
      match skipWs p.2 with
      | ',' :: r2 => (parseElemsWith pv f r2).map (fun q => (p.1 :: q.1, q.2))
      | ']' :: r2 => some ([p.1], r2)
      | _ => none)

/-- Parse the non-empty member list of a JSON object, up to and including
the closing brace, with `pv` parsing each member value. -/
def parseFieldsWith (pv : List Char → Option (JSVal × List Char)) :
    Nat → List Char → Option (List (String × JSVal) × List Char)
  | 0, _ => none
  | f + 1, cs =>
    match skipWs cs with
    | '"' :: r =>
      (parseStringBody (r.length + 1) r).bind (fun kp =>
        match skipWs kp.2 with
        | ':' :: r2 =>
          (pv r2).bind (fun p =>
            match skipWs p.2 with
            | ',' :: r3 =>
              (parseFieldsWith pv f r3).map (fun q => ((⟨kp.1⟩, p.1) :: q.1, q.2))
            | '\x7d' :: r3 => some ([(⟨kp.1⟩, p.1)], r3)
            | _ => none)
        | _ => none)
    | _ => none

/-- Fuelled JSON value parser: the grammar of `JSON.parse` on the modelled
domain. -/
def parseVal : Nat → List Char → Option (JSVal × List Char)
  | 0, _ => none
  | f + 1, cs =>
    match skipWs cs with
    | '\x7b' :: r =>
      if (skipWs r).head? = some '\x7d' then some (.obj [], (skipWs r).tail)
      else (parseFieldsWith (fun cs2 => parseVal f cs2) f (skipWs r)).map
        (fun p => (.obj p.1, p.2))
    | '[' :: r =>
      if (skipWs r).head? = some ']' then some (.arr [], (skipWs r).tail)
      else (parseElemsWith (fun cs2 => parseVal f cs2) f (skipWs r)).map
        (fun p => (.arr p.1, p.2))
    | '"' :: r => (parseStringBody (r.length + 1) r).map (fun p => (.str ⟨p.1⟩, p.2))
    | 't' :: r => if r.take 3 = ['r', 'u', 'e'] then some (.bool true, r.drop 3) else none
    | 'f' :: r => if r.take 4 = ['a', 'l', 's', 'e'] then some (.bool false, r.drop 4) else none
    | 'n' :: r => if r.take 3 = ['u', 'l', 'l'] then some (.null, r.drop 3) else none
    | cs2 => parseJNum cs2

/-- `JSON.parse` without a reviver, on the modelled domain: parse one value
and require that only whitespace remains. -/
def jsonParse (s : String) : Option JSVal :=
  match parseVal (s.length + 1) s.data with
  | some (v, rest) => if (skipWs rest).isEmpty then some v else none
  | none => none

/-! ## The codec registry's traversals -/

/-- A replacer-side registry entry (an element of `TJSON.replacers`,
src line 231): `exec` returning `none` models either an exception thrown
inside the codec (aborting the enclosing call) or exhaustion of the
recursion fuel of a fuelled standard codec. -/
structure RepEntry where
  tag : String
  check : JSVal → Bool
  exec : JSVal → Option JSVal

/-- A reviver-side registry entry (an element of `TJSON.revivers`,
src line 239). -/
structure RevEntry where
  tag : String
  exec : String → Option JSVal

/-- The inner loop of `TJSON.replacer` (src lines 177–187) for one
candidate value `val[key]`: scan the registered entries in order; the first
entry whose `check` result is truthy and whose `exec` result is truthy
wins, and the value is replaced by `tag + success` (string concatenation
after JS string coercion, fuelled here by the enclosing traversal's fuel).
A falsy `check` or `exec` result moves on to the next entry.  The outer
`none` propagates a model-level abort from an entry's `exec`; `some none`
means no entry matched. -/
def scanReps (f : Nat) : List RepEntry → JSVal → Option (Option String)
  | [], _ => some none
  | e :: rest, v =>
    if e.check v then
      match e.exec v with
      | none => none
      | some w =>
        if truthy w then some (some (e.tag ++ jsToStringF f w)) else scanReps f rest v
    else scanReps f rest v

/-- The loop of `TJSON.reviver` (src lines 203–212) for one string scalar:
scan the registered entries in order; the first entry whose tag is a prefix
of the string and whose `exec` on the remainder is truthy wins.  `none`
propagates a model-level abort as in `scanReps`; `some none` means the
string is left unchanged. -/
def scanRevs : List RevEntry → String → Option (Option JSVal)
  | [], _ => some none
  | r :: rest, s =>
    if r.tag.data.isPrefixOf s.data then
      match r.exec (s.drop r.tag.length) with
      | none => none
      | some w => if truthy w then some (some w) else scanRevs rest s
    else scanRevs rest s

/-- The value tree as it stands once `JSON.stringify(value, TJSON.replacer)`
has applied the replacer to every node (fuelled by tree depth): the
replacer receives each node of object kind and scans each of its own
enumerable keys (object properties and array indices) against the
registered entries, replacing a hit with the tagged string before the
serializer descends; unmatched children of object/array kind are walked in
turn when the serializer reaches them, and the root itself is never a scan
candidate. -/
def encodeTreeF : Nat → List RepEntry → JSVal → Option JSVal
  | 0, _, _ => none
  | f + 1, reps, v =>
    match v with
    | .obj fs =>
      (fs.mapM (fun (kv : String × JSVal) =>
        match scanReps f reps kv.2 with
        | none => none
        | some (some s) => some (kv.1, JSVal.str s)
        | some none => (encodeTreeF f reps kv.2).map (fun x2 => (kv.1, x2)))).map .obj
    | .arr xs =>
      (xs.mapM (fun x =>
        match scanReps f reps x with
        | none => none
        | some (some s) => some (JSVal.str s)
        | some none => encodeTreeF f reps x)).map .arr
    | w => some w

/-- The value tree after `JSON.parse(text, TJSON.reviver)` has applied the
reviver to every parsed value bottom-up (fuelled by tree depth): string
scalars are scanned against the registered entries, every other value
passes through unchanged. -/
def decodeTreeF : Nat → List RevEntry → JSVal → Option JSVal
  | 0, _, _ => none
  | f + 1, revs, v =>
    match v with
    | .str s =>
      match scanRevs revs s with
      | none => none
      | some (some w) => some w
      | some none => some (.str s)
    | .obj fs =>
      (fs.mapM (fun (kv : String × JSVal) =>
        (decodeTreeF f revs kv.2).map (fun x2 => (kv.1, x2)))).map .obj
    | .arr xs => (xs.mapM (fun x => decodeTreeF f revs x)).map .arr
    | w => some w

/-- `TJSON.stringify` (src lines 15–17) over an explicit replacer registry,
at explicit fuel: `JSON.stringify(value, TJSON.replacer)`, i.e. the
replacer pass followed by plain JSON emission (compact form: the optional
`space` argument only affects pretty-printing and is not modelled). -/
def stringifyWithF (f : Nat) (reps : List RepEntry) (v : JSVal) : Option String :=
  (encodeTreeF f reps v).bind (fun w => (emitValF f w).map (fun l => ⟨l⟩))

/-- `TJSON.stringify` over an explicit replacer registry; the canonical
fuel `countV v` covers the walk. -/
def stringifyWith (reps : List RepEntry) (v : JSVal) : Option String :=
  stringifyWithF (countV v) reps v

/-- `TJSON.parse` (src lines 29–31) over an explicit reviver registry, at
explicit fuel: `JSON.parse(text, TJSON.reviver)`, i.e. plain JSON parsing
followed by the reviver pass. -/
def parseWithF (f : Nat) (revs : List RevEntry) (s : String) : Option JSVal :=
  (jsonParse s).bind (decodeTreeF f revs)

/-- `TJSON.parse` over an explicit reviver registry; the parsed tree's
depth is below the text's length, so that fuel covers the reviver pass. -/
def parseWith (revs : List RevEntry) (s : String) : Option JSVal :=
  parseWithF (s.length + 1) revs s

/-! ## The standard codecs -/

/-- One element of `TJSON.standards` (src lines 245–273). -/
structure StdCodec where
  tag : String
  check : JSVal → Bool
  replacer : JSVal → Option JSVal
  reviver : String → Option JSVal

/-- JavaScript `String.prototype.split` with a non-empty string separator,
on character lists (fuelled by the input length): used by the standard
RegExp reviver. -/
def splitOnAux : Nat → List Char → List Char → List Char → List (List Char)
  | 0, _, acc, cs => [acc.reverse ++ cs]
  | f + 1, sep, acc, cs =>
    if sep.isPrefixOf cs then acc.reverse :: splitOnAux f sep [] (cs.drop sep.length)
    else
      match cs with
      | [] => [acc.reverse]
      | c :: t => splitOnAux f sep (c :: acc) t

/-- `s.split(sep)` for a non-empty plain-string separator. -/
def jsSplit (s sep : String) : List String :=
  (splitOnAux (s.data.length + 1) sep.data [] s.data).map (fun l => ⟨l⟩)

/-- The six standard codecs (src lines 245–273), parameterized by the
recursive entry points `strF` (`TJSON.stringify`) and `prsF` (`TJSON.parse`)
that the Map and Set codecs re-enter.  The catch-all `none` branches of the
replacers are unreachable: the scan only calls a replacer whose `check`
accepted the value.  The `(02)` reviver does not model the `SyntaxError`
JavaScript's `RegExp` constructor would throw on an invalid pattern or
flags text (no theorem reaches such payloads). -/
def stdCodecs (strF : JSVal → Option String) (prsF : String → Option JSVal) :
    List StdCodec :=
  [ { tag := "(00)",
      check := fun v => match v with | .num _ => true | .nan => true | _ => false,
      replacer := fun v => match v with
        | .num n => some (.str (intToBase36 n))
        | .nan => some (.str "NaN")
        | _ => none,
      reviver := fun s => match parseInt36 s with
        | some n => some (.num n)
        | none => some .nan },
    { tag := "(01)",
      check := fun v => match v with | .bigint _ => true | _ => false,
      replacer := fun v => some v,
      reviver := fun s => (parseBigInt s).map .bigint },
    { tag := "(02)",
      check := fun v => match v with | .regexp _ _ => true | _ => false,
      replacer := fun v => match v with
        | .regexp src fl => some (.str (src ++ "___flags___" ++ fl))
        | _ => none,
      reviver := fun s =>
        match jsSplit s "___flags___" with
        | [a] => some (.regexp a "")
        | a :: b :: _ => some (.regexp a b)
        | [] => some (.regexp "" "") },
    { tag := "(03)",
      check := fun v => match v with | .date _ => true | _ => false,
      replacer := fun v => match v with
        | .date (some m) => some (.str (intToBase36 m))
        | .date none => some (.str "NaN")
        | _ => none,
      reviver := fun s => match parseInt36 s with
        | some n => some (.date (some n))
        | none => some (.date none) },
    { tag := "(04)",
      check := fun v => match v with | .jsMap _ => true | _ => false,
      replacer := fun v => match v with
        | .jsMap es => (strF (.arr (es.map (fun p => .arr [p.1, p.2])))).map .str
        | _ => none,
      reviver := fun s => (prsF s).bind (fun parsed =>
        (iterElems parsed).bind (fun es =>
          (es.mapM entryToPair).map (fun ps => .jsMap (mkMapEntries ps)))) },
    { tag := "(05)",
      check := fun v => match v with | .jsSet _ => true | _ => false,
      replacer := fun v => match v with
        | .jsSet xs => (strF (.arr xs)).map .str
        | _ => none,
      reviver := fun s => (prsF s).bind (fun parsed =>
        (iterElems parsed).map (fun xs => .jsSet (mkSetElems xs))) } ]

/-- The replacer-side entries a codec list installs, as `activateStandards`
(src line 222) builds them. -/
def repsOf (l : List StdCodec) : List RepEntry :=
  l.map (fun s => { tag := s.tag, check := s.check, exec := s.replacer })

/-- The reviver-side entries a codec list installs. -/
def revsOf (l : List StdCodec) : List RevEntry :=
  l.map (fun c => { tag := c.tag, exec := c.reviver })

/-- `TJSON.stringify` in the registry state reached by
`activateStandards()`, fuelled: each re-entry of `stringify` from inside
the Map/Set codecs consumes one unit of fuel, and `none` signals exhaustion
(which no theorem below reaches).  Only the replacer sides of the codecs
are consulted, so the parse entry point is passed as the constant `none`
function; `repsOf_stdCodecs_indep` below records that the resulting entries
do not depend on it. -/
def stringifyF : Nat → JSVal → Option String
  | 0, _ => none
  | f + 1, v =>
    stringifyWithF (countV v)
      (repsOf (stdCodecs (fun w => stringifyF f w) (fun _ => none))) v

/-- `TJSON.parse` in the registry state reached by `activateStandards()`,
fuelled like `stringifyF`; only the reviver sides are consulted, so the
stringify entry point is passed as the constant `none` function
(`revsOf_stdCodecs_indep` below). -/
def parseF : Nat → String → Option JSVal
  | 0, _ => none
  | f + 1, s =>
    parseWith (revsOf (stdCodecs (fun _ => none) (fun t => parseF f t))) s

/-- The replacer entries of the standard codec list ignore the parse entry
point. -/
theorem repsOf_stdCodecs_indep (sf : JSVal → Option String)
    (p1 p2 : String → Option JSVal) :
    repsOf (stdCodecs sf p1) = repsOf (stdCodecs sf p2) := rfl

/-- The reviver entries of the standard codec list ignore the stringify
entry point. -/
theorem revsOf_stdCodecs_indep (s1 s2 : JSVal → Option String)
    (pf : String → Option JSVal) :
    revsOf (stdCodecs s1 pf) = revsOf (stdCodecs s2 pf) := rfl

/-- The contents of `TJSON.replacers` after `activateStandards()`, at the
given recursion fuel. -/
def stdReplacers (f : Nat) : List RepEntry :=
  repsOf (stdCodecs (fun w => stringifyF f w) (fun _ => none))

/-- The contents of `TJSON.revivers` after `activateStandards()`, at the
given recursion fuel. -/
def stdRevivers (f : Nat) : List RevEntry :=
  revsOf (stdCodecs (fun _ => none) (fun t => parseF f t))

/-! ## The registry-mutating public API -/

/-- A registry state: the pair of entry sequences `TJSON.replacers` and
`TJSON.revivers` (src lines 231, 239). -/
structure Registry where
  replacers : List RepEntry
  revivers : List RevEntry

/-- The initial registry: both sequences start empty. -/
def emptyRegistry : Registry := { replacers := [], revivers := [] }

namespace TJSON

/-- `TJSON.find` (src lines 122–129).  Both indices are computed from
`TJSON.replacers`: line 125 reads
`TJSON.replacers.indexOf(TJSON.replacers.find($ => $.tag === tag))` for the
reviver index as well, and this verbatim translation preserves that slip.
`indexOf` applied to the first entry `Array.prototype.find` returns equals
the index of the first entry carrying the tag (entries are distinct
objects); no hit gives `indexOf(undefined) = -1` twice, the guard
`replacer >= 0 && reviver >= 0` fails, and the function returns
`undefined` (`none`). -/
def find (r : Registry) (tag : String) : Option (Nat × Nat) :=
  match r.replacers.findIdx? (fun e => e.tag == tag) with
  | some i => some (i, i)
  | none => none

/-- The validation step of `TJSON.add(tag)` (src lines 46–51): a hit in
`find` throws `Error("Replacer/ Reviver already exists")`; otherwise the
call only returns the builder object.  Either way the registry is
untouched — the sequences are only extended by the builder's later
`replacer`/`reviver` steps.  The post-state is paired with the thrown
error message, if any. -/
def add (r : Registry) (tag : String) : Registry × Option String :=
  match find r tag with
  | some _ => (r, some "Replacer/ Reviver already exists")
  | none => (r, none)

/-- The builder step `.check(checkExec).replacer(replaceExec)`
(src line 63): pushes a replacer entry unconditionally. -/
def pushReplacer (r : Registry) (tag : String) (check : JSVal → Bool)
    (exec : JSVal → Option JSVal) : Registry :=
  { r with replacers := r.replacers ++ [{ tag := tag, check := check, exec := exec }] }

/-- The builder step `.reviver(reviveExec)` (src line 71): pushes a
reviver entry unconditionally. -/
def pushReviver (r : Registry) (tag : String) (exec : String → Option JSVal) :
    Registry :=
  { r with revivers := r.revivers ++ [{ tag := tag, exec := exec }] }

/-- `Array.prototype.splice(start, deleteCount)` restricted to its removal
effect on the array contents. -/
def spliceRemove {α : Type _} (l : List α) (start cnt : Nat) : List α :=
  l.take start ++ l.drop (start + cnt)

/-- `TJSON.remove` (src lines 157–163): destructuring `find`'s result
throws a `TypeError` when it is `undefined`; when both indices are truthy
(nonzero — the index 0 is falsy in JavaScript) the code calls
`splice(index, 0)` on both sequences, with a `deleteCount` of zero. -/
def remove (r : Registry) (tag : String) : Registry × Option String :=
  match find r tag with
  | none => (r, some "TypeError")
  | some (i, j) =>
    if i != 0 && j != 0 then
      ({ replacers := spliceRemove r.replacers i 0,
         revivers := spliceRemove r.revivers j 0 }, none)
    else (r, none)

/-- Replace the element at index `i` (out of range leaves the list
unchanged; JavaScript would throw there, and no run below reaches such an
index — the two sequences stay tag-parallel). -/
def modifyAt {α : Type _} : List α → Nat → (α → α) → List α
  | [], _, _ => []
  | a :: t, 0, g => g a :: t
  | a :: t, n + 1, g => a :: modifyAt t n g

/-- `TJSON.modify(tag).check(exec)` (src lines 97–101): mutate the check of
the replacer entry at index `find[0]`; an unknown tag throws
`Error("Replacer/ Reviver not found")` (src line 93). -/
def modifyCheck (r : Registry) (tag : String) (exec : JSVal → Bool) :
    Registry × Option String :=
  match find r tag with
  | none => (r, some "Replacer/ Reviver not found")
  | some (i, _) =>
    ({ r with replacers := modifyAt r.replacers i (fun e => { e with check := exec }) },
      none)

/-- `TJSON.modify(tag).replacer(exec)` (src lines 103–107). -/
def modifyReplacer (r : Registry) (tag : String) (exec : JSVal → Option JSVal) :
    Registry × Option String :=
  match find r tag with
  | none => (r, some "Replacer/ Reviver not found")
  | some (i, _) =>
    ({ r with replacers := modifyAt r.replacers i (fun e => { e with exec := exec }) },
      none)

/-- `TJSON.modify(tag).reviver(exec)` (src lines 109–113): the reviver
entry is addressed at index `find[1]`, which the `find` slip computes from
the replacer sequence. -/
def modifyReviver (r : Registry) (tag : String) (exec : String → Option JSVal) :
    Registry × Option String :=
  match find r tag with
  | none => (r, some "Replacer/ Reviver not found")
  | some (_, j) =>
    ({ r with revivers := modifyAt r.revivers j (fun e => { e with exec := exec }) },
      none)

end TJSON

/-- One public API call, as a transition on registry states.  A
`pushReplacer`/`pushReviver` step is available to a caller exactly when an
earlier successful `add` of the same tag handed out the builder object (a
builder stage can also be invoked repeatedly); the concrete runs below use
them only in that way. -/
inductive RegOp where
  | add (tag : String)
  | pushReplacer (tag : String) (check : JSVal → Bool) (exec : JSVal → Option JSVal)
  | pushReviver (tag : String) (exec : String → Option JSVal)
  | modifyCheck (tag : String) (exec : JSVal → Bool)
  | modifyReplacer (tag : String) (exec : JSVal → Option JSVal)
  | modifyReviver (tag : String) (exec : String → Option JSVal)
  | remove (tag : String)

/-- The state transition of one public API call, with the thrown error
message, if any.  Every throw in the source happens before any mutation of
the sequences, so the post-state on a throw is the pre-state. -/
def step (r : Registry) : RegOp → Registry × Option String
  | .add tag => TJSON.add r tag
  | .pushReplacer tag c e => (TJSON.pushReplacer r tag c e, none)
  | .pushReviver tag e => (TJSON.pushReviver r tag e, none)
  | .modifyCheck tag e => TJSON.modifyCheck r tag e
  | .modifyReplacer tag e => TJSON.modifyReplacer r tag e
  | .modifyReviver tag e => TJSON.modifyReviver r tag e
  | .remove tag => TJSON.remove r tag

/-- Run a sequence of API calls.  The post-state threads through every call
(a caller may catch a thrown error and continue); the flag records whether
every call completed without throwing. -/
def runAll (r : Registry) (ops : List RegOp) : Registry × Bool :=
  ops.foldl (fun acc op =>
    let s := step acc.1 op
    (s.1, acc.2 && s.2.isNone)) (r, true)

/-- An atomic public API call: a complete, uninterleaved `add` chain —
`TJSON.add(tag).check(c).replacer(e).reviver(v)` run to completion with
each builder method called exactly once — or one of the other public
calls.  `activateStandards` (src lines 221–223) registers the standard
codecs through exactly such chains. -/
inductive AtomicOp where
  | addFull (tag : String) (check : JSVal → Bool) (exec : JSVal → Option JSVal)
      (rev : String → Option JSVal)
  | modifyCheck (tag : String) (exec : JSVal → Bool)
  | modifyReplacer (tag : String) (exec : JSVal → Option JSVal)
  | modifyReviver (tag : String) (exec : String → Option JSVal)
  | remove (tag : String)
  | activateStandards (fuel : Nat)

/-- `add(tag).check(c).replacer(e).reviver(v)` as one transition: the
duplicate check throws before anything is pushed; on success a replacer
entry and then a reviver entry are appended. -/
def addFull (r : Registry) (tag : String) (c : JSVal → Bool)
    (e : JSVal → Option JSVal) (v : String → Option JSVal) : Registry × Option String :=
  match TJSON.find r tag with
  | some _ => (r, some "Replacer/ Reviver already exists")
  | none => (TJSON.pushReviver (TJSON.pushReplacer r tag c e) tag v, none)

/-- `TJSON.standards.forEach(...)` (src line 222): register each standard
codec in order; a thrown duplicate error aborts the remaining iterations
but keeps the registrations already made. -/
def runStdAdds (r : Registry) : List StdCodec → Registry × Option String
  | [] => (r, none)
  | c :: t =>
    match addFull r c.tag c.check c.replacer c.reviver with
    | (r2, none) => runStdAdds r2 t
    | (r2, some e) => (r2, some e)

/-- The state transition of one atomic API call. -/
def stepAtomic (r : Registry) : AtomicOp → Registry × Option String
  | .addFull tag c e v => addFull r tag c e v
  | .modifyCheck tag e => TJSON.modifyCheck r tag e
  | .modifyReplacer tag e => TJSON.modifyReplacer r tag e
  | .modifyReviver tag e => TJSON.modifyReviver r tag e
  | .remove tag => TJSON.remove r tag
  | .activateStandards f =>
    runStdAdds r (stdCodecs (fun w => stringifyF f w) (fun t => parseF f t))

/-- Run a sequence of atomic API calls, threading post-states (thrown
errors may be caught by the caller, who can keep issuing calls). -/
def runAtomic (r : Registry) (ops : List AtomicOp) : Registry :=
  ops.foldl (fun acc op => (stepAtomic acc op).1) r

/-- The own properties of the input object after `TJSON.stringify` returns:
`JSON.stringify` first hands the root object to `TJSON.replacer`, whose
loop assigns `val[key] = replacer.tag + success` in place on the caller's
object (src line 183), so the caller's reference observes the tagged
strings; the remaining mutations happen inside unreplaced child objects.
The post-contents of the root's property slots are therefore the fields of
the encoded tree. -/
def postStringifyFields (f : Nat) (reps : List RepEntry)
    (fields : List (String × JSVal)) : Option (List (String × JSVal)) :=
  match encodeTreeF f reps (.obj fields) with
  | some (.obj fs2) => some fs2
  | _ => none

/-! ## Concrete demonstration material -/

/-- The six standard codecs with both recursive entry points supplied at
the given fuel (the registry contents `activateStandards()` installs, seen
as one list as in `TJSON.standards`). -/
def stdCodecsAt (f : Nat) : List StdCodec :=
  stdCodecs (fun w => stringifyF f w) (fun t => parseF f t)

/-- A user check function accepting everything. -/
def demoCheck : JSVal → Bool := fun _ => true

/-- A user replacer function returning a fixed non-empty string. -/
def demoExec : JSVal → Option JSVal := fun _ => some (.str "x")

/-- A user reviver function echoing the payload. -/
def demoRev : String → Option JSVal := fun s => some (.str s)

/-- A registry holding two completed registrations, tagged `"(00)"` and
`"(01)"`. -/
def demoRegistry2 : Registry :=
  { replacers := [{ tag := "(00)", check := demoCheck, exec := demoExec },
                  { tag := "(01)", check := demoCheck, exec := demoExec }],
    revivers := [{ tag := "(00)", exec := demoRev }, { tag := "(01)", exec := demoRev }] }

/-- A registry holding a replacer entry for `"(09)"` and no reviver entry
at all — the state `TJSON.add("(09)").check(c).replacer(e)` leaves behind
when the builder chain stops before `.reviver`. -/
def demoRegistryHalf : Registry :=
  { replacers := [{ tag := "(09)", check := demoCheck, exec := demoExec }],
    revivers := [] }

/-! ## Claim C1 -/

/-- C1: with the standard codecs activated, `stringify` applied to
`{ age: 27, when: d }` — `d` the fixed instant 1595833379000 ms after the
epoch — produces exactly the text
`{"age":"(00)r","when":"(03)kd45znw8"}` (`r` and `kd45znw8` being the
base-36 digits of 27 and of the millisecond value), and `parse` applied to
that text returns an object whose `age` is the number 27 and whose `when`
is a `Date` with the same millisecond value. -/
theorem C1_concrete_round_trip :
    stringifyF 10 (.obj [("age", .num 27), ("when", .date (some 1595833379000))]) =
      some "\x7b\"age\":\"(00)r\",\"when\":\"(03)kd45znw8\"\x7d" ∧
    parseF 10 "\x7b\"age\":\"(00)r\",\"when\":\"(03)kd45znw8\"\x7d" =
      some (.obj [("age", .num 27), ("when", .date (some 1595833379000))]) :=
  ⟨rfl, rfl⟩

/-! ## Claim C2 -/

/-- One codec-level round trip: the value passes the codec's check, the
replacer produces a truthy result `w`, and the reviver applied to the
string the encode pass stores after the tag (the JS string coercion of
`w`) returns exactly the original value. -/
def codecRoundTrip (f : Nat) (c : StdCodec) (x : JSVal) : Prop :=
  c.check x = true ∧
  ∃ w, c.replacer x = some w ∧ truthy w = true ∧ c.reviver (jsToStringF f w) = some x

/-- C2: each of the six standard codecs decodes its own encoding back to
the original value on representative inputs: the integer 27, the big
integer −10, the RegExp `/nice/gim`, a `Date` instant, a `Map` whose key
and value are codec-matched (`1 ↦ Date`), and a `Set` with (deduplicated)
members `"item"`, `12` and a `Date`. -/
theorem C2_standard_codec_round_trips :
    codecRoundTrip 9 ((stdCodecsAt 9).get ⟨0, by decide⟩) (.num 27) ∧
    codecRoundTrip 9 ((stdCodecsAt 9).get ⟨1, by decide⟩) (.bigint (-10)) ∧
    codecRoundTrip 9 ((stdCodecsAt 9).get ⟨2, by decide⟩) (.regexp "nice" "gim") ∧
    codecRoundTrip 9 ((stdCodecsAt 9).get ⟨3, by decide⟩) (.date (some 1595833379000)) ∧
    codecRoundTrip 9 ((stdCodecsAt 9).get ⟨4, by decide⟩)
      (.jsMap [(.num 1, .date (some 1595833379000))]) ∧
    codecRoundTrip 9 ((stdCodecsAt 9).get ⟨5, by decide⟩)
      (.jsSet [.str "item", .num 12, .date (some 1595833379000)]) :=
  ⟨⟨rfl, _, rfl, rfl, rfl⟩, ⟨rfl, _, rfl, rfl, rfl⟩, ⟨rfl, _, rfl, rfl, rfl⟩,
   ⟨rfl, _, rfl, rfl, rfl⟩, ⟨rfl, _, rfl, rfl, rfl⟩, ⟨rfl, _, rfl, rfl, rfl⟩⟩

/-! ## Claim C3, counterexample part -/

/-- C3 counterexample: after `activateStandards()`, the JSON-native tree
`{ x: 0 }` does not survive the round trip: `stringify` encodes `0` as the
tagged string `"(00)0"`, and on `parse` the `(00)` reviver computes
`parseInt("0", 36) = 0`, which is falsy, so the tagged string is left in
place and the result differs from the input. -/
theorem C3_zero_not_round_tripped :
    jsonNative (.obj [("x", .num 0)]) = true ∧
    stringifyF 10 (.obj [("x", .num 0)]) = some "\x7b\"x\":\"(00)0\"\x7d" ∧
    parseF 10 "\x7b\"x\":\"(00)0\"\x7d" = some (.obj [("x", .str "(00)0")]) ∧
    JSVal.obj [("x", .str "(00)0")] ≠ JSVal.obj [("x", .num 0)] := by
  refine ⟨by simp [jsonNative, jsonNativeFields], rfl, rfl, by simp⟩

/-! ## Claim C4 -/

/-- C4 (code bug): `remove` never deletes anything.  For the entry at
index 1 the truthiness guard passes but `splice(1, 0)` removes zero
elements; for the entry at index 0 the guard `replacer && reviver` itself
fails (0 is falsy).  Both calls return without throwing and leave both
sequences unchanged, the tag still present on both sides. -/
theorem C4_remove_removes_nothing :
    TJSON.remove demoRegistry2 "(01)" = (demoRegistry2, none) ∧
    TJSON.remove demoRegistry2 "(00)" = (demoRegistry2, none) ∧
    demoRegistry2.replacers.map (fun e => e.tag) = ["(00)", "(01)"] ∧
    demoRegistry2.revivers.map (fun e => e.tag) = ["(00)", "(01)"] :=
  ⟨rfl, rfl, rfl, rfl⟩

/-! ## Claim C5 -/

/-- C5 (code bug): with a replacer entry for `"(09)"` present and no
reviver entry at all, `find` still reports the hit `(0, 0)` — line 125
computes the "reviver" index from the replacer sequence — instead of the
`undefined` that its own documentation (`[0] replacer, [1] reviver`) and
the spec prescribe for a tag lacking a reviver entry. -/
theorem C5_find_hits_without_reviver :
    TJSON.find demoRegistryHalf "(09)" = some (0, 0) ∧
    demoRegistryHalf.revivers = [] :=
  ⟨rfl, rfl⟩

/-! ## Claim C6, counterexample part -/

/-- The interleaved builder run
`const b1 = TJSON.add("(08)"); const b2 = TJSON.add("(08)");
b1.check(c).replacer(e).reviver(v); b2.check(c).replacer(e).reviver(v)`. -/
def interleavedOps : List RegOp :=
  [.add "(08)", .add "(08)",
   .pushReplacer "(08)" demoCheck demoExec, .pushReviver "(08)" demoRev,
   .pushReplacer "(08)" demoCheck demoExec, .pushReviver "(08)" demoRev]

/-- C6 counterexample: the interleaved builder run completes without a
single throw — both `add` validations run while the registry is still
empty — and leaves two replacer entries and two reviver entries tagged
`"(08)"`: the no-two-entries-share-a-tag invariant fails under builder
interleaving. -/
theorem C6_interleaved_duplicate :
    (runAll emptyRegistry interleavedOps).2 = true ∧
    (runAll emptyRegistry interleavedOps).1.replacers.map (fun e => e.tag) =
      ["(08)", "(08)"] ∧
    (runAll emptyRegistry interleavedOps).1.revivers.map (fun e => e.tag) =
      ["(08)", "(08)"] ∧
    ¬ (((runAll emptyRegistry interleavedOps).1.replacers.map (fun e => e.tag)).Nodup) :=
  ⟨rfl, rfl, rfl, by decide⟩

/-! ## Claim C7 -/

/-- C7: once a tag's registration has completed — a replacer entry and a
reviver entry with that tag are installed — a second `add` with the same
tag throws `Error("Replacer/ Reviver already exists")` and leaves the
registry unchanged (the throw happens before the builder could push
anything). -/
theorem C7_duplicate_add_rejected (r : Registry) (t : String)
    (h1 : ∃ e ∈ r.replacers, e.tag = t) (_h2 : ∃ e ∈ r.revivers, e.tag = t) :
    TJSON.add r t = (r, some "Replacer/ Reviver already exists") := by
  obtain ⟨e, he, het⟩ := h1
  have hs : (r.replacers.findIdx? (fun e2 => e2.tag == t)).isSome := by
    rw [List.findIdx?_isSome]
    exact List.any_eq_true.mpr ⟨e, he, by simp [het]⟩
  obtain ⟨i, hi⟩ := Option.isSome_iff_exists.mp hs
  simp [TJSON.add, TJSON.find, hi]

/-- Witness for C7 at a concrete registry. -/
theorem C7_witness :
    TJSON.add demoRegistry2 "(00)" = (demoRegistry2, some "Replacer/ Reviver already exists") :=
  C7_duplicate_add_rejected demoRegistry2 "(00)"
    ⟨{ tag := "(00)", check := demoCheck, exec := demoExec }, by simp [demoRegistry2], rfl⟩
    ⟨{ tag := "(00)", exec := demoRev }, by simp [demoRegistry2], rfl⟩

/-! ## Claim C10 -/

/-- C10: when `find` yields no hit, `remove` throws a `TypeError` — the
destructuring `let [replacer, reviver] = TJSON.find(tag)` of `undefined` —
rather than returning as a no-op, and the failed call leaves both registry
sequences unchanged. -/
theorem C10_remove_throws_on_missing (r : Registry) (t : String)
    (h : TJSON.find r t = none) :
    TJSON.remove r t = (r, some "TypeError") := by
  simp [TJSON.remove, h]

/-- Witness for C10 at the empty registry. -/
theorem C10_witness :
    TJSON.remove emptyRegistry "(99)" = (emptyRegistry, some "TypeError") :=
  C10_remove_throws_on_missing emptyRegistry "(99)" rfl

/-! ## Claim C6, invariant part -/

/-- The registry invariant maintained by atomic API use: the replacer tags
are duplicate-free and the two sequences carry the same tags in the same
order. -/
def RegInv (r : Registry) : Prop :=
  (r.replacers.map (fun e => e.tag)).Nodup ∧
  r.replacers.map (fun e => e.tag) = r.revivers.map (fun e => e.tag)

theorem modifyAt_map {α β : Type _} (l : List α) (i : Nat) (g : α → α) (p : α → β)
    (hp : ∀ a, p (g a) = p a) :
    (TJSON.modifyAt l i g).map p = l.map p := by
  induction l generalizing i with
  | nil => simp [TJSON.modifyAt]
  | cons a t ih =>
    cases i with
    | zero => simp [TJSON.modifyAt, hp]
    | succ n => simp [TJSON.modifyAt, ih]

theorem spliceRemove_zero {α : Type _} (l : List α) (i : Nat) :
    TJSON.spliceRemove l i 0 = l := by
  simp [TJSON.spliceRemove]

/-- The registry is untouched by `remove`, whatever the argument. -/
theorem remove_fst (r : Registry) (t : String) : (TJSON.remove r t).1 = r := by
  unfold TJSON.remove
  cases h : TJSON.find r t with
  | none => rfl
  | some ij =>
    obtain ⟨i, j⟩ := ij
    by_cases hg : (i != 0 && j != 0) = true
    · simp [hg, spliceRemove_zero]
    · simp [hg]

theorem addFull_preserves (r : Registry) (t : String) (c : JSVal → Bool)
    (e : JSVal → Option JSVal) (v : String → Option JSVal) (h : RegInv r) :
    RegInv (addFull r t c e v).1 := by
  unfold addFull
  cases hf : TJSON.find r t with
  | some ij => exact h
  | none =>
    have hnone : r.replacers.findIdx? (fun e2 => e2.tag == t) = none := by
      unfold TJSON.find at hf
      cases hx : r.replacers.findIdx? (fun e2 => e2.tag == t) with
      | none => rfl
      | some i => rw [hx] at hf; exact absurd hf (by simp)
    have hnot : t ∉ r.replacers.map (fun e2 => e2.tag) := by
      intro hmem
      obtain ⟨e2, he2, hte⟩ := List.mem_map.mp hmem
      have h2 : (r.replacers.findIdx? (fun e2 => e2.tag == t)).isSome := by
        rw [List.findIdx?_isSome]
        exact List.any_eq_true.mpr ⟨e2, he2, by simp [hte]⟩
      rw [hnone] at h2
      exact absurd h2 (by simp)
    obtain ⟨hnd, heq⟩ := h
    constructor
    · simp only [TJSON.pushReviver, TJSON.pushReplacer, List.map_append, List.map_cons,
        List.map_nil]
      rw [List.nodup_append]
      exact ⟨hnd, List.nodup_singleton t, by
        intro a ha hb
        simp only [List.mem_singleton] at hb
        subst hb
        exact hnot ha⟩
    · simp only [TJSON.pushReviver, TJSON.pushReplacer, List.map_append, List.map_cons,
        List.map_nil]
      rw [heq]

theorem modifyCheck_preserves (r : Registry) (t : String) (e : JSVal → Bool)
    (h : RegInv r) : RegInv (TJSON.modifyCheck r t e).1 := by
  unfold TJSON.modifyCheck
  cases TJSON.find r t with
  | none => exact h
  | some ij =>
    obtain ⟨i, j⟩ := ij
    constructor
    · rw [modifyAt_map r.replacers i
        (fun e1 => { tag := e1.tag, check := e, exec := e1.exec })
        (fun e2 => e2.tag) (fun a => rfl)]
      exact h.1
    · rw [modifyAt_map r.replacers i
        (fun e1 => { tag := e1.tag, check := e, exec := e1.exec })
        (fun e2 => e2.tag) (fun a => rfl)]
      exact h.2

theorem modifyReplacer_preserves (r : Registry) (t : String) (e : JSVal → Option JSVal)
    (h : RegInv r) : RegInv (TJSON.modifyReplacer r t e).1 := by
  unfold TJSON.modifyReplacer
  cases TJSON.find r t with
  | none => exact h
  | some ij =>
    obtain ⟨i, j⟩ := ij
    constructor
    · rw [modifyAt_map r.replacers i
        (fun e1 => { tag := e1.tag, check := e1.check, exec := e })
        (fun e2 => e2.tag) (fun a => rfl)]
      exact h.1
    · rw [modifyAt_map r.replacers i
        (fun e1 => { tag := e1.tag, check := e1.check, exec := e })
        (fun e2 => e2.tag) (fun a => rfl)]
      exact h.2

theorem modifyReviver_preserves (r : Registry) (t : String) (e : String → Option JSVal)
    (h : RegInv r) : RegInv (TJSON.modifyReviver r t e).1 := by
  unfold TJSON.modifyReviver
  cases TJSON.find r t with
  | none => exact h
  | some ij =>
    obtain ⟨i, j⟩ := ij
    refine ⟨h.1, ?_⟩
    rw [modifyAt_map r.revivers j
      (fun e1 => { tag := e1.tag, exec := e })
      (fun e2 => e2.tag) (fun a => rfl)]
    exact h.2

theorem runStdAdds_preserves (l : List StdCodec) (r : Registry) (h : RegInv r) :
    RegInv (runStdAdds r l).1 := by
  induction l generalizing r with
  | nil => exact h
  | cons c t ih =>
    unfold runStdAdds
    cases ha : addFull r c.tag c.check c.replacer c.reviver with
    | mk r2 err =>
      have h2 : RegInv r2 := by
        have h3 := addFull_preserves r c.tag c.check c.replacer c.reviver h
        rw [ha] at h3
        exact h3
      cases err with
      | none => exact ih r2 h2
      | some msg => exact h2

theorem stepAtomic_preserves (r : Registry) (op : AtomicOp) (h : RegInv r) :
    RegInv (stepAtomic r op).1 := by
  cases op with
  | addFull t c e v =>
    simp only [stepAtomic]
    exact addFull_preserves r t c e v h
  | modifyCheck t e =>
    simp only [stepAtomic]
    exact modifyCheck_preserves r t e h
  | modifyReplacer t e =>
    simp only [stepAtomic]
    exact modifyReplacer_preserves r t e h
  | modifyReviver t e =>
    simp only [stepAtomic]
    exact modifyReviver_preserves r t e h
  | remove t =>
    simp only [stepAtomic]
    rw [remove_fst r t]
    exact h
  | activateStandards f =>
    simp only [stepAtomic]
    exact runStdAdds_preserves _ r h

/-- C6, amended: for every sequence of atomic public API calls — complete
uninterleaved `add` builder chains, `modify` steps, `remove`,
`activateStandards` — starting from the empty registry, no two replacer
entries share a tag and no two reviver entries share a tag at any point
(every intermediate state is itself the final state of a prefix run). -/
theorem C6_atomic_runs_nodup (ops : List AtomicOp) :
    ((runAtomic emptyRegistry ops).replacers.map (fun e => e.tag)).Nodup ∧
    ((runAtomic emptyRegistry ops).revivers.map (fun e => e.tag)).Nodup := by
  have main : ∀ (l : List AtomicOp) (r : Registry), RegInv r → RegInv (runAtomic r l) := by
    intro l
    induction l with
    | nil => intro r h; exact h
    | cons op t ih =>
      intro r h
      have h2 := stepAtomic_preserves r op h
      simpa [runAtomic] using ih (stepAtomic r op).1 h2
  have hfin := main ops emptyRegistry ⟨List.nodup_nil, rfl⟩
  exact ⟨hfin.1, hfin.2 ▸ hfin.1⟩

/-! ## Claim C8 -/

/-- A replacer entry matches a value when its `check` result is truthy and
its `exec` result is a truthy value (a falsy `exec` result makes the scan
try the next entry, src lines 180–185). -/
def repMatches (e : RepEntry) (v : JSVal) : Prop :=
  e.check v = true ∧ ∃ w, e.exec v = some w ∧ truthy w = true

/-- The scan stops at the first matching entry: a match at index `i` (and
no abort among the checked entries) pins the scan's result to the earliest
match, whose index is at most `i`. -/
theorem scanReps_first_match (fl : Nat) (reps : List RepEntry) (v : JSVal) :
    ∀ (i : Nat) (hi : i < reps.length),
      repMatches (reps.get ⟨i, hi⟩) v →
      (∀ e ∈ reps, e.check v = true → (e.exec v).isSome) →
      ∃ k, ∃ hk : k < reps.length, k ≤ i ∧ repMatches (reps.get ⟨k, hk⟩) v ∧
        ∃ w, (reps.get ⟨k, hk⟩).exec v = some w ∧
          scanReps fl reps v = some (some ((reps.get ⟨k, hk⟩).tag ++ jsToStringF fl w)) := by
  induction reps with
  | nil => intro i hi; exact absurd hi (by simp)
  | cons e rest ih =>
    intro i hi hm htot
    by_cases hc : e.check v = true
    · have hsome : (e.exec v).isSome := htot e (by simp) hc
      obtain ⟨w, hw⟩ := Option.isSome_iff_exists.mp hsome
      by_cases ht : truthy w = true
      · refine ⟨0, by simp, Nat.zero_le i, ⟨hc, w, hw, ht⟩, w, hw, ?_⟩
        simp [scanReps, hc, hw, ht]
      · cases i with
        | zero =>
          exfalso
          obtain ⟨_, w2, hw2, ht2⟩ := hm
          simp only [List.get] at hw2
          rw [hw] at hw2
          obtain rfl : w = w2 := by injection hw2
          exact ht ht2
        | succ i2 =>
          have hi2 : i2 < rest.length := by simpa using hi
          have hm2 : repMatches (rest.get ⟨i2, hi2⟩) v := by
            simpa only [List.get] using hm
          obtain ⟨k, hk, hki, hkm, w3, hw3, hscan⟩ :=
            ih i2 hi2 hm2 (fun e2 he2 => htot e2 (by simp [he2]))
          refine ⟨k + 1, by simpa using Nat.succ_lt_succ hk, Nat.succ_le_succ hki,
            by simpa only [List.get] using hkm, w3, by simpa only [List.get] using hw3, ?_⟩
          simpa only [List.get, scanReps, hc, hw, if_neg ht, if_pos hc] using hscan
    · cases i with
      | zero =>
        exfalso
        obtain ⟨hc2, _⟩ := hm
        simp only [List.get] at hc2
        exact hc hc2
      | succ i2 =>
        have hi2 : i2 < rest.length := by simpa using hi
        have hm2 : repMatches (rest.get ⟨i2, hi2⟩) v := by
          simpa only [List.get] using hm
        obtain ⟨k, hk, hki, hkm, w3, hw3, hscan⟩ :=
          ih i2 hi2 hm2 (fun e2 he2 => htot e2 (by simp [he2]))
        refine ⟨k + 1, by simpa using Nat.succ_lt_succ hk, Nat.succ_le_succ hki,
          by simpa only [List.get] using hkm, w3, by simpa only [List.get] using hw3, ?_⟩
        have hcf : e.check v = false := by simpa using hc
        simpa only [List.get, scanReps, hcf, Bool.false_eq_true, if_false] using hscan

/-- C8: when two registered entries both match a value (checks truthy and
`exec` results truthy), the encode scan replaces the value using the tag
and encoding of an entry no later than the earlier one — in particular the
later entry's encode result is never used.  The totality hypothesis says no
checked entry aborts the model (JavaScript codec functions always return),
and the statement holds at every coercion fuel. -/
theorem C8_earlier_entry_wins (fl : Nat) (reps : List RepEntry) (v : JSVal)
    (i j : Nat) (hi : i < reps.length) (hj : j < reps.length) (hij : i < j)
    (hmi : repMatches (reps.get ⟨i, hi⟩) v)
    (_hmj : repMatches (reps.get ⟨j, hj⟩) v)
    (htot : ∀ e ∈ reps, e.check v = true → (e.exec v).isSome) :
    ∃ k, ∃ hk : k < reps.length, k ≤ i ∧ k < j ∧ repMatches (reps.get ⟨k, hk⟩) v ∧
      ∃ w, (reps.get ⟨k, hk⟩).exec v = some w ∧
        scanReps fl reps v = some (some ((reps.get ⟨k, hk⟩).tag ++ jsToStringF fl w)) := by
  obtain ⟨k, hk, hki, hkm, w, hw, hscan⟩ := scanReps_first_match fl reps v i hi hmi htot
  exact ⟨k, hk, hki, Nat.lt_of_le_of_lt hki hij, hkm, w, hw, hscan⟩

/-- A first demonstration replacer entry. -/
def demoRep1 : RepEntry :=
  { tag := "(11)", check := fun _ => true, exec := fun _ => some (.str "one") }

/-- A second demonstration replacer entry matching the same values. -/
def demoRep2 : RepEntry :=
  { tag := "(12)", check := fun _ => true, exec := fun _ => some (.str "two") }

/-- Witness for C8: with two entries both matching the number 5, the scan
produces the first entry's tagged encoding. -/
theorem C8_witness :
    ∃ k, ∃ hk : k < ([demoRep1, demoRep2] : List RepEntry).length, k ≤ 0 ∧ k < 1 ∧
      repMatches (([demoRep1, demoRep2] : List RepEntry).get ⟨k, hk⟩) (.num 5) ∧
      ∃ w, (([demoRep1, demoRep2] : List RepEntry).get ⟨k, hk⟩).exec (.num 5) = some w ∧
        scanReps 0 [demoRep1, demoRep2] (.num 5) =
          some (some ((([demoRep1, demoRep2] : List RepEntry).get ⟨k, hk⟩).tag ++
            jsToStringF 0 w)) :=
  C8_earlier_entry_wins 0 [demoRep1, demoRep2] (.num 5) 0 1 (by simp) (by simp)
    (by omega)
    ⟨rfl, .str "one", rfl, rfl⟩
    ⟨rfl, .str "two", rfl, rfl⟩
    (by
      intro e he hc
      rcases List.mem_cons.mp he with rfl | he2
      · exact rfl
      · rcases List.mem_cons.mp he2 with rfl | he3
        · exact rfl
        · exact absurd he3 (List.not_mem_nil e))

/-! ## Claim C9 -/

/-- The per-field step of the replacer pass keeps the key. -/
theorem encode_field_step_key (f : Nat) (reps : List RepEntry)
    (kv : String × JSVal) (y : String × JSVal)
    (h : (match scanReps f reps kv.2 with
      | none => none
      | some (some s) => some (kv.1, JSVal.str s)
      | some none => (encodeTreeF f reps kv.2).map (fun x2 => (kv.1, x2))) = some y) :
    y.1 = kv.1 := by
  cases hs : scanReps f reps kv.2 with
  | none => rw [hs] at h; exact absurd h (by simp)
  | some o =>
    cases o with
    | some s =>
      rw [hs] at h
      simp only [Option.some.injEq] at h
      rw [← h]
    | none =>
      rw [hs] at h
      simp only [Option.map_eq_some'] at h
      obtain ⟨x2, _, hx⟩ := h
      rw [← hx]

/-- Looking up a codec-matched property after the replacer pass yields the
tagged string. -/
theorem lookup_after_encode (f : Nat) (reps : List RepEntry) :
    ∀ (fields fs2 : List (String × JSVal)) (k : String) (v : JSVal) (s : String),
      fields.mapM (fun (kv : String × JSVal) =>
        match scanReps f reps kv.2 with
        | none => none
        | some (some s) => some (kv.1, JSVal.str s)
        | some none => (encodeTreeF f reps kv.2).map (fun x2 => (kv.1, x2))) = some fs2 →
      fields.lookup k = some v →
      scanReps f reps v = some (some s) →
      fs2.lookup k = some (.str s) := by
  intro fields
  induction fields with
  | nil => intro fs2 k v s _ hlk _; exact absurd hlk (by simp)
  | cons kv t ih =>
    intro fs2 k v s hmm hlk hscan
    obtain ⟨k1, v1⟩ := kv
    rw [List.mapM_cons] at hmm
    simp only [Option.bind_eq_bind, Option.bind_eq_some, Option.some.injEq,
      Option.pure_def] at hmm
    obtain ⟨y1, hy1, ys, hys, hfs⟩ := hmm
    obtain rfl : y1 :: ys = fs2 := hfs
    have hkey : y1.1 = k1 := encode_field_step_key f reps (k1, v1) y1 hy1
    by_cases hk : (k == k1) = true
    · have hv1 : v1 = v := by
        rw [List.lookup_cons] at hlk
        simp only [hk] at hlk
        injection hlk
      subst hv1
      rw [hscan] at hy1
      simp only [Option.some.injEq] at hy1
      rw [← hy1, List.lookup_cons]
      simp [hk]
    · have hkf : (k == k1) = false := by simpa using hk
      have hlk2 : t.lookup k = some v := by
        rw [List.lookup_cons] at hlk
        simpa only [hkf] using hlk
      have ha := ih ys k v s hys hlk2 hscan
      obtain ⟨ya, yb⟩ := y1
      have hya : ya = k1 := hkey
      subst hya
      rw [List.lookup_cons]
      simpa only [hkf] using ha

/-- C9: `stringify` mutates its argument.  If the input object has a
property `k` whose value `v` is matched by the registered entries (the
scan yields the tagged string `s`), then after `stringify` returns, the
input object's own property `k` holds the tagged string `s` — not the
original value. -/
theorem C9_stringify_mutates_input (f : Nat) (reps : List RepEntry)
    (fields fields' : List (String × JSVal)) (k : String) (v : JSVal) (s : String)
    (hpost : postStringifyFields (f + 1) reps fields = some fields')
    (hlk : fields.lookup k = some v)
    (hscan : scanReps f reps v = some (some s))
    (hne : JSVal.str s ≠ v) :
    fields'.lookup k = some (.str s) ∧ fields'.lookup k ≠ some v := by
  simp only [postStringifyFields, encodeTreeF] at hpost
  cases hmm : fields.mapM (fun (kv : String × JSVal) =>
      match scanReps f reps kv.2 with
      | none => none
      | some (some s) => some (kv.1, JSVal.str s)
      | some none => (encodeTreeF f reps kv.2).map (fun x2 => (kv.1, x2))) with
  | none => rw [hmm] at hpost; exact absurd hpost (by simp)
  | some fs2 =>
    rw [hmm] at hpost
    simp only [Option.map_some', Option.some.injEq] at hpost
    have ha : fs2.lookup k = some (.str s) :=
      lookup_after_encode f reps fields fs2 k v s hmm hlk hscan
    have ha2 : fields'.lookup k = some (.str s) := by rw [hpost] at ha; exact ha
    refine ⟨ha2, ?_⟩
    rw [ha2]
    intro hcontra
    simp only [Option.some.injEq] at hcontra
    exact hne hcontra

/-- Witness for C9: with the standard codecs installed, after
`stringify({ age: 27 })` the caller's object holds the tagged string
`"(00)r"` at `age`, not the number 27. -/
theorem C9_witness :
    ([("age", JSVal.str "(00)r")] : List (String × JSVal)).lookup "age" =
        some (.str "(00)r") ∧
      ([("age", JSVal.str "(00)r")] : List (String × JSVal)).lookup "age" ≠
        some (.num 27) :=
  C9_stringify_mutates_input 4 (stdReplacers 3) [("age", .num 27)]
    [("age", JSVal.str "(00)r")] "age" (.num 27) "(00)r" rfl rfl rfl (by simp)

/-! ## Claim C3, amended part: round trip over the empty registry -/

/-- The characters that may legally follow an emitted value inside a larger
emitted text: nothing (top level), a comma, or a closing bracket/brace. -/
def restSafe : List Char → Prop
  | [] => True
  | c :: _ => c = ',' ∨ c = ']' ∨ c = '\x7d'

theorem charOfNat_toNat (c : Char) (h : c.toNat < 55296) : Char.ofNat c.toNat = c := by
  have hv : c.toNat.isValidChar := Or.inl h
  unfold Char.ofNat
  rw [dif_pos hv]
  apply Char.eq_of_val_eq
  show (Char.ofNatAux c.toNat hv).val = c.val
  unfold Char.ofNatAux
  apply UInt32.eq_of_val_eq
  simp [UInt32.val, BitVec.ofNatLt, Char.toNat, UInt32.toNat]
  rfl

theorem takeWhile_dropWhile_append (p : Char → Bool) :
    ∀ (l r : List Char), (∀ c ∈ l, p c = true) →
      (∀ c, r.head? = some c → p c = false) →
      (l ++ r).takeWhile p = l ∧ (l ++ r).dropWhile p = r := by
  intro l
  induction l with
  | nil =>
    intro r _ hr
    cases r with
    | nil => simp
    | cons c t =>
      have hc := hr c rfl
      simp [List.takeWhile_cons, List.dropWhile_cons, hc]
  | cons a l ih =>
    intro r hl hr
    have ha : p a = true := hl a (by simp)
    have hrec := ih r (fun c hc => hl c (by simp [hc])) hr
    simp [List.takeWhile_cons, List.dropWhile_cons, ha, hrec.1, hrec.2]

theorem skipWs_cons (c : Char) (l : List Char) (h : isJsWs c = false) :
    skipWs (c :: l) = c :: l := by
  simp [skipWs, List.dropWhile, h]

theorem digit10_facts :
    ∀ d, d < 10 → charToDigit36 (digitChar36 d) = some d ∧
      isDigitB 10 (digitChar36 d) = true := by decide

theorem hex16_facts : ∀ d, d < 16 → hexVal (digitChar36 d) = some d := by decide

theorem digit10_head_facts :
    ∀ d, d < 10 → isJsWs (digitChar36 d) = false ∧ digitChar36 d ≠ ']' ∧
      (1 ≤ d → digitChar36 d ≠ '0') := by decide

theorem digitsToNat_append (b : Nat) (l : List Char) (c : Char) :
    digitsToNat b (l ++ [c]) = digitsToNat b l * b + ((charToDigit36 c).getD 0) := by
  simp [digitsToNat, List.foldl_append]

theorem natDigitsF_ne_nil (f n : Nat) : natDigitsF f 10 n ≠ [] := by
  cases f with
  | zero => simp [natDigitsF]
  | succ f =>
    simp only [natDigitsF]
    rw [if_neg (by omega)]
    split <;> simp

theorem natDigitsF_all_digits :
    ∀ f n, n ≤ f → ∀ c ∈ natDigitsF f 10 n, isDigitB 10 c = true := by
  intro f
  induction f with
  | zero =>
    intro n h c hc
    obtain rfl : n = 0 := Nat.le_zero.mp h
    simp only [natDigitsF, List.mem_singleton] at hc
    subst hc
    exact (digit10_facts 0 (by omega)).2
  | succ f ih =>
    intro n h c hc
    simp only [natDigitsF] at hc
    rw [if_neg (by omega)] at hc
    by_cases hn : n < 10
    · rw [if_pos hn] at hc
      simp only [List.mem_singleton] at hc
      subst hc
      exact (digit10_facts n hn).2
    · rw [if_neg hn] at hc
      rcases List.mem_append.mp hc with h1 | h2
      · have hfuel : n / 10 ≤ f := by
          have : n / 10 < n := Nat.div_lt_self (by omega) (by omega)
          omega
        exact ih (n / 10) hfuel c h1
      · simp only [List.mem_singleton] at h2
        subst h2
        exact (digit10_facts (n % 10) (Nat.mod_lt n (by omega))).2

theorem natDigitsF_val : ∀ f n, n ≤ f → digitsToNat 10 (natDigitsF f 10 n) = n := by
  intro f
  induction f with
  | zero =>
    intro n h
    obtain rfl : n = 0 := Nat.le_zero.mp h
    decide
  | succ f ih =>
    intro n h
    simp only [natDigitsF]
    rw [if_neg (by omega)]
    by_cases hn : n < 10
    · rw [if_pos hn]
      simp only [digitsToNat, List.foldl_cons, List.foldl_nil, Nat.zero_mul, Nat.zero_add]
      rw [(digit10_facts n hn).1]
      rfl
    · rw [if_neg hn]
      rw [digitsToNat_append]
      have hfuel : n / 10 ≤ f := by
        have : n / 10 < n := Nat.div_lt_self (by omega) (by omega)
        omega
      rw [ih (n / 10) hfuel]
      rw [(digit10_facts (n % 10) (Nat.mod_lt n (by omega))).1]
      simp only [Option.getD_some]
      omega

theorem natDigitsF_head_ne_zero :
    ∀ f n, 1 ≤ n → n ≤ f → (natDigitsF f 10 n).head? ≠ some '0' := by
  intro f
  induction f with
  | zero => intro n h1 h2; omega
  | succ f ih =>
    intro n h1 h2
    simp only [natDigitsF]
    rw [if_neg (by omega)]
    by_cases hn : n < 10
    · rw [if_pos hn]
      intro hcontra
      simp only [List.head?_cons, Option.some.injEq] at hcontra
      exact (digit10_head_facts n hn).2.2 h1 hcontra
    · rw [if_neg hn]
      rw [List.head?_append_of_ne_nil _ (natDigitsF_ne_nil f (n / 10))]
      have hfuel : n / 10 ≤ f := by
        have : n / 10 < n := Nat.div_lt_self (by omega) (by omega)
        omega
      exact ih (n / 10) (Nat.one_le_div_iff (by omega) |>.mpr (by omega)) hfuel

/-- `restSafe` heads are not digits. -/
theorem restSafe_not_digit (r : List Char) (hr : restSafe r) :
    ∀ c, r.head? = some c → isDigitB 10 c = false := by
  cases r with
  | nil => intro c hc; exact absurd hc (by simp)
  | cons c0 t =>
    intro c hc
    simp only [List.head?_cons, Option.some.injEq] at hc
    subst hc
    rcases hr with rfl | rfl | rfl <;> decide

/-- Round trip for JSON integer texts: parsing the decimal rendering of `n`
followed by a legal continuation returns `n` and the continuation. -/
theorem parseJNum_rt (n : Int) (rest : List Char) (hr : restSafe rest) :
    parseJNum (intToDecimal n ++ rest) = some (.num n, rest) := by
  have hdig := natDigitsF_all_digits n.natAbs n.natAbs le_rfl
  have hval := natDigitsF_val n.natAbs n.natAbs le_rfl
  have hne := natDigitsF_ne_nil n.natAbs n.natAbs
  have htd := takeWhile_dropWhile_append (isDigitB 10) (natDigits 10 n.natAbs) rest
    (by intro c hc; exact hdig c hc) (restSafe_not_digit rest hr)
  have hnozero : ¬ (1 < (natDigitsF n.natAbs 10 n.natAbs).length ∧
      (natDigitsF n.natAbs 10 n.natAbs).head? = some '0') := by
    rintro ⟨hlen, hhead⟩
    by_cases habs : n.natAbs = 0
    · rw [habs] at hlen
      simp [natDigitsF] at hlen
    · exact natDigitsF_head_ne_zero n.natAbs n.natAbs (by omega) le_rfl hhead
  rw [natDigits] at htd
  by_cases hn : n < 0
  · simp only [intToDecimal, if_pos hn, List.cons_append]
    simp only [parseJNum, natDigits, List.head?_cons, List.tail_cons, reduceIte]
    rw [htd.1, htd.2]
    rw [if_neg (by simp [hne]), if_neg hnozero]
    cases rest with
    | nil => simp; omega
    | cons c t =>
      have hr2 : c = ',' ∨ c = ']' ∨ c = '\x7d' := hr
      rcases hr2 with rfl | rfl | rfl <;> (simp; omega)
  · 
    simp only [intToDecimal, if_neg hn]
    obtain ⟨c0, t0, hct⟩ := List.exists_cons_of_ne_nil hne
    have hc0dig : isDigitB 10 c0 = true := hdig c0 (by rw [hct]; simp)
    have hc0 : c0 ≠ '-' := by
      intro h
      rw [h] at hc0dig
      exact absurd hc0dig (by decide)
    have hhead : ¬ ((natDigitsF n.natAbs 10 n.natAbs ++ rest).head? = some '-') := by
      rw [List.head?_append_of_ne_nil _ hne, hct]
      intro hcontra
      simp only [List.head?_cons, Option.some.injEq] at hcontra
      exact hc0 hcontra
    simp only [parseJNum, natDigits]
    rw [if_neg hhead]
    rw [htd.1, htd.2]
    rw [if_neg (by simp [hne]), if_neg hnozero]
    cases rest with
    | nil => simp; omega
    | cons c t =>
      have hr2 : c = ',' ∨ c = ']' ∨ c = '\x7d' := hr
      rcases hr2 with rfl | rfl | rfl <;> (simp; omega)
theorem quoteChars_append_arg (c : Char) (t : List Char) :
    quoteChars (c :: t) = escapeChar c ++ quoteChars t := rfl

theorem escapeChar_length_pos (c : Char) : 1 ≤ (escapeChar c).length := by
  unfold escapeChar
  split
  · simp
  · split
    · simp
    · split
      · split <;> simp
      · simp

theorem psbStep_quote (g : Nat) (X : List Char) :
    parseStringBody (g + 1) ('\\' :: '"' :: X) =
      (parseStringBody g X).map (fun p => (('"' : Char) :: p.1, p.2)) := rfl

theorem psbStep_back (g : Nat) (X : List Char) :
    parseStringBody (g + 1) ('\\' :: '\\' :: X) =
      (parseStringBody g X).map (fun p => (('\\' : Char) :: p.1, p.2)) := rfl

theorem psbStep_b (g : Nat) (X : List Char) :
    parseStringBody (g + 1) ('\\' :: 'b' :: X) =
      (parseStringBody g X).map (fun p => (Char.ofNat 8 :: p.1, p.2)) := rfl

theorem psbStep_t (g : Nat) (X : List Char) :
    parseStringBody (g + 1) ('\\' :: 't' :: X) =
      (parseStringBody g X).map (fun p => (('\t' : Char) :: p.1, p.2)) := rfl

theorem psbStep_n (g : Nat) (X : List Char) :
    parseStringBody (g + 1) ('\\' :: 'n' :: X) =
      (parseStringBody g X).map (fun p => (('\n' : Char) :: p.1, p.2)) := rfl

theorem psbStep_f (g : Nat) (X : List Char) :
    parseStringBody (g + 1) ('\\' :: 'f' :: X) =
      (parseStringBody g X).map (fun p => (Char.ofNat 12 :: p.1, p.2)) := rfl

theorem psbStep_r (g : Nat) (X : List Char) :
    parseStringBody (g + 1) ('\\' :: 'r' :: X) =
      (parseStringBody g X).map (fun p => (('\r' : Char) :: p.1, p.2)) := rfl

theorem psbStep_u (g : Nat) (d1 d2 : Char) (n1 n2 : Nat) (X : List Char)
    (h1 : hexVal d1 = some n1) (h2 : hexVal d2 = some n2) :
    parseStringBody (g + 1) ('\\' :: 'u' :: '0' :: '0' :: d1 :: d2 :: X) =
      (parseStringBody g X).map
        (fun p => (Char.ofNat (((0 * 16 + 0) * 16 + n1) * 16 + n2) :: p.1, p.2)) := by
  have e1 : parseStringBody (g + 1) ('\\' :: 'u' :: '0' :: '0' :: d1 :: d2 :: X) =
      match hexVal '0', hexVal '0', hexVal d1, hexVal d2 with
      | some a1, some a2, some a3, some a4 =>
        (parseStringBody g X).map (fun p =>
          (Char.ofNat (((a1 * 16 + a2) * 16 + a3) * 16 + a4) :: p.1, p.2))
      | _, _, _, _ => none := by with_unfolding_all rfl
  rw [e1, show hexVal '0' = some 0 from rfl, h1, h2]

theorem psbStep_ord (g : Nat) (c : Char) (X : List Char)
    (h1 : ¬ c = '"') (h2 : ¬ c = '\\') (h3 : ¬ c.toNat < 32) :
    parseStringBody (g + 1) (c :: X) =
      (parseStringBody g X).map (fun p => (c :: p.1, p.2)) := by
  simp only [parseStringBody]
  rw [if_neg h1, if_neg h2, if_neg h3]

/-- Parsing the quoted rendering of a character list followed by the
closing quote returns the original characters. -/
theorem parseStringBody_rt :
    ∀ (l rest : List Char) (f : Nat), (quoteChars l).length + 1 ≤ f →
      parseStringBody f (quoteChars l ++ '"' :: rest) = some (l, rest) := by
  intro l
  induction l with
  | nil =>
    intro rest f hf
    cases f with
    | zero => omega
    | succ g =>
      rw [show quoteChars [] = ([] : List Char) from rfl, List.nil_append]
      with_unfolding_all rfl
  | cons c t ih =>
    intro rest f hf
    rw [quoteChars_append_arg] at hf ⊢
    cases f with
    | zero => omega
    | succ g =>
      have hfg : (quoteChars t).length + 1 ≤ g := by
        rw [List.length_append] at hf
        have := escapeChar_length_pos c
        omega
      by_cases h1 : c = '"'
      · subst h1
        have he : escapeChar '"' = ['\\', '"'] := rfl
        rw [he]
        simp only [List.cons_append, List.nil_append]
        rw [psbStep_quote g _, ih rest g hfg]
        rfl
      · by_cases h2 : c = '\\'
        · subst h2
          have he : escapeChar '\\' = ['\\', '\\'] := rfl
          rw [he]
          simp only [List.cons_append, List.nil_append]
          rw [psbStep_back g _, ih rest g hfg]
          rfl
        · by_cases h3 : c.toNat < 32
          · have hofnat : Char.ofNat c.toNat = c := charOfNat_toNat c (by omega)
            by_cases h8 : c.toNat = 8
            · have he : escapeChar c = ['\\', 'b'] := by
                unfold escapeChar
                rw [if_neg h1, if_neg h2, if_pos h3, h8]
              rw [he]
              simp only [List.cons_append, List.nil_append]
              rw [psbStep_b g _, ih rest g hfg]
              rw [h8] at hofnat
              simp only [Option.map_some']
              rw [hofnat]
            · by_cases h9 : c.toNat = 9
              · have he : escapeChar c = ['\\', 't'] := by
                  unfold escapeChar
                  rw [if_neg h1, if_neg h2, if_pos h3, h9]
                rw [he]
                simp only [List.cons_append, List.nil_append]
                rw [psbStep_t g _, ih rest g hfg]
                have h9b : Char.ofNat 9 = c := by rw [← h9]; exact hofnat
                simp only [Option.map_some']
                rw [show ('\t' : Char) = Char.ofNat 9 from rfl, h9b]
              · by_cases h10 : c.toNat = 10
                · have he : escapeChar c = ['\\', 'n'] := by
                    unfold escapeChar
                    rw [if_neg h1, if_neg h2, if_pos h3, h10]
                  rw [he]
                  simp only [List.cons_append, List.nil_append]
                  rw [psbStep_n g _, ih rest g hfg]
                  have hb : Char.ofNat 10 = c := by rw [← h10]; exact hofnat
                  simp only [Option.map_some']
                  rw [show ('\n' : Char) = Char.ofNat 10 from rfl, hb]
                · by_cases h12 : c.toNat = 12
                  · have he : escapeChar c = ['\\', 'f'] := by
                      unfold escapeChar
                      rw [if_neg h1, if_neg h2, if_pos h3, h12]
                    rw [he]
                    simp only [List.cons_append, List.nil_append]
                    rw [psbStep_f g _, ih rest g hfg]
                    have hb : Char.ofNat 12 = c := by rw [← h12]; exact hofnat
                    simp only [Option.map_some']
                    rw [hb]
                  · by_cases h13 : c.toNat = 13
                    · have he : escapeChar c = ['\\', 'r'] := by
                        unfold escapeChar
                        rw [if_neg h1, if_neg h2, if_pos h3, h13]
                      rw [he]
                      simp only [List.cons_append, List.nil_append]
                      rw [psbStep_r g _, ih rest g hfg]
                      have hb : Char.ofNat 13 = c := by rw [← h13]; exact hofnat
                      simp only [Option.map_some']
                      rw [show ('\r' : Char) = Char.ofNat 13 from rfl, hb]
                    · have he : escapeChar c =
                          ['\\', 'u', '0', '0', digitChar36 (c.toNat / 16),
                            digitChar36 (c.toNat % 16)] := by
                        unfold escapeChar
                        rw [if_neg h1, if_neg h2, if_pos h3]
                        split
                        · omega
                        · omega
                        · omega
                        · omega
                        · omega
                        · rfl
                      rw [he]
                      simp only [List.cons_append, List.nil_append]
                      rw [psbStep_u g _ _ _ _ _
                          (hex16_facts (c.toNat / 16) (by omega))
                          (hex16_facts (c.toNat % 16) (by omega)),
                        ih rest g hfg]
                      have harith : ((0 * 16 + 0) * 16 + c.toNat / 16) * 16 +
                          c.toNat % 16 = c.toNat := by omega
                      simp only [Option.map_some']
                      rw [harith, hofnat]
          · have he : escapeChar c = [c] := by
              unfold escapeChar
              rw [if_neg h1, if_neg h2, if_neg h3]
            rw [he]
            simp only [List.cons_append, List.nil_append]
            rw [psbStep_ord g c _ h1 h2 h3, ih rest g hfg]
            rfl

theorem countV_pos (v : JSVal) : 1 ≤ countV v := by
  cases v <;> simp [countV]

theorem countV_lt_countElems :
    ∀ (xs : List JSVal) (x : JSVal), x ∈ xs → countV x < countElems xs := by
  intro xs
  induction xs with
  | nil => intro x hx; exact absurd hx (by simp)
  | cons a t ih =>
    intro x hx
    rw [show countElems (a :: t) = 1 + countV a + countElems t from rfl]
    rcases List.mem_cons.mp hx with rfl | hmem
    · omega
    · have := ih x hmem
      omega

theorem countV_lt_countFields :
    ∀ (fs : List (String × JSVal)) (kv : String × JSVal), kv ∈ fs →
      countV kv.2 < countFields fs := by
  intro fs
  induction fs with
  | nil => intro kv hkv; exact absurd hkv (by simp)
  | cons a t ih =>
    intro kv hkv
    obtain ⟨k0, v0⟩ := a
    rw [show countFields ((k0, v0) :: t) = 1 + countV v0 + countFields t from rfl]
    rcases List.mem_cons.mp hkv with rfl | hmem
    · change countV v0 < 1 + countV v0 + countFields t
      omega
    · have := ih kv hmem
      omega

theorem mapM_some_id {α : Type _} (g : α → Option α) :
    ∀ l : List α, (∀ x ∈ l, g x = some x) → l.mapM g = some l := by
  intro l
  induction l with
  | nil => intro _; rfl
  | cons a t ih =>
    intro h
    rw [List.mapM_cons, h a (by simp), ih (fun x hx => h x (by simp [hx]))]
    rfl

/-- With an empty replacer registry the replacer pass is the identity:
no entry can match (`scanReps` of `[]` reports no match), so every node
passes through. -/
theorem encodeTreeF_nil :
    ∀ (f : Nat) (v : JSVal), countV v ≤ f → encodeTreeF f [] v = some v := by
  intro f
  induction f with
  | zero => intro v h; have := countV_pos v; omega
  | succ g ih =>
    intro v h
    cases v with
    | obj fs =>
      show (fs.mapM (fun (kv : String × JSVal) =>
          match scanReps g [] kv.2 with
          | none => none
          | some (some s) => some (kv.1, JSVal.str s)
          | some none => (encodeTreeF g [] kv.2).map (fun x2 => (kv.1, x2)))).map
            JSVal.obj = some (JSVal.obj fs)
      rw [mapM_some_id _ fs]
      · rfl
      · intro kv hkv
        show (match scanReps g [] kv.2 with
          | none => none
          | some (some s) => some (kv.1, JSVal.str s)
          | some none => (encodeTreeF g [] kv.2).map (fun x2 => (kv.1, x2))) =
            some kv
        rw [show scanReps g [] kv.2 = some none from rfl]
        have hlt := countV_lt_countFields fs kv hkv
        have hle : countV kv.2 ≤ g := by
          rw [show countV (JSVal.obj fs) = 1 + countFields fs from rfl] at h
          omega
        rw [ih kv.2 hle]
        rfl
    | arr xs =>
      show (xs.mapM (fun x =>
          match scanReps g [] x with
          | none => none
          | some (some s) => some (JSVal.str s)
          | some none => encodeTreeF g [] x)).map JSVal.arr = some (JSVal.arr xs)
      rw [mapM_some_id _ xs]
      · rfl
      · intro x hx
        show (match scanReps g [] x with
          | none => none
          | some (some s) => some (JSVal.str s)
          | some none => encodeTreeF g [] x) = some x
        rw [show scanReps g [] x = some none from rfl]
        have hlt := countV_lt_countElems xs x hx
        have hle : countV x ≤ g := by
          rw [show countV (JSVal.arr xs) = 1 + countElems xs from rfl] at h
          omega
        exact ih x hle
    | num n => rfl
    | nan => rfl
    | str s => rfl
    | bool b => rfl
    | null => rfl
    | bigint i => rfl
    | date ms => rfl
    | regexp s fl => rfl
    | jsMap es => rfl
    | jsSet es => rfl

/-- With an empty reviver registry the reviver pass is the identity:
`scanRevs` of `[]` leaves every string scalar unchanged. -/
theorem decodeTreeF_nil :
    ∀ (f : Nat) (v : JSVal), countV v ≤ f → decodeTreeF f [] v = some v := by
  intro f
  induction f with
  | zero => intro v h; have := countV_pos v; omega
  | succ g ih =>
    intro v h
    cases v with
    | obj fs =>
      show (fs.mapM (fun (kv : String × JSVal) =>
          (decodeTreeF g [] kv.2).map (fun x2 => (kv.1, x2)))).map JSVal.obj =
            some (JSVal.obj fs)
      rw [mapM_some_id _ fs]
      · rfl
      · intro kv hkv
        show (decodeTreeF g [] kv.2).map (fun x2 => (kv.1, x2)) = some kv
        have hlt := countV_lt_countFields fs kv hkv
        have hle : countV kv.2 ≤ g := by
          rw [show countV (JSVal.obj fs) = 1 + countFields fs from rfl] at h
          omega
        rw [ih kv.2 hle]
        rfl
    | arr xs =>
      show (xs.mapM (fun x => decodeTreeF g [] x)).map JSVal.arr =
        some (JSVal.arr xs)
      rw [mapM_some_id _ xs]
      · rfl
      · intro x hx
        have hlt := countV_lt_countElems xs x hx
        have hle : countV x ≤ g := by
          rw [show countV (JSVal.arr xs) = 1 + countElems xs from rfl] at h
          omega
        exact ih x hle
    | str s => rfl
    | num n => rfl
    | nan => rfl
    | bool b => rfl
    | null => rfl
    | bigint i => rfl
    | date ms => rfl
    | regexp s fl => rfl
    | jsMap es => rfl
    | jsSet es => rfl

theorem char_ne_of_toNat (c d : Char) (h : c.toNat ≠ d.toNat) : c ≠ d :=
  fun heq => h (by rw [heq])

theorem digitB_range (c : Char) (h : isDigitB 10 c = true) :
    48 ≤ c.toNat ∧ c.toNat ≤ 57 := by
  by_contra hc
  simp only [isDigitB, charToDigit36] at h
  rw [if_neg hc] at h
  by_cases h2 : 97 ≤ c.toNat ∧ c.toNat ≤ 122
  · rw [if_pos h2] at h
    simp only [decide_eq_true_eq] at h
    omega
  · rw [if_neg h2] at h
    by_cases h3 : 65 ≤ c.toNat ∧ c.toNat ≤ 90
    · rw [if_pos h3] at h
      simp only [decide_eq_true_eq] at h
      omega
    · rw [if_neg h3] at h
      simp at h

/-- A decimal digit character is not whitespace and not any of the
characters that select another `parseVal` branch or terminate a JSON
composite. -/
theorem digitB_head_facts (c : Char) (h : isDigitB 10 c = true) :
    isJsWs c = false ∧ c ≠ '\x7b' ∧ c ≠ '[' ∧ c ≠ '"' ∧ c ≠ 't' ∧ c ≠ 'f' ∧
      c ≠ 'n' ∧ c ≠ ']' := by
  have hr := digitB_range c h
  refine ⟨?_, ?_, ?_, ?_, ?_, ?_, ?_, ?_⟩
  · simp only [isJsWs, Bool.or_eq_false_iff, beq_eq_false_iff_ne, ne_eq]
    refine ⟨⟨⟨?_, ?_⟩, ?_⟩, ?_⟩
    · exact char_ne_of_toNat c ' ' (by rw [show (' ').toNat = 32 from rfl]; omega)
    · exact char_ne_of_toNat c '\t' (by rw [show ('\t').toNat = 9 from rfl]; omega)
    · exact char_ne_of_toNat c '\n' (by rw [show ('\n').toNat = 10 from rfl]; omega)
    · exact char_ne_of_toNat c '\r' (by rw [show ('\r').toNat = 13 from rfl]; omega)
  · exact char_ne_of_toNat c '\x7b' (by rw [show ('\x7b').toNat = 123 from rfl]; omega)
  · exact char_ne_of_toNat c '[' (by rw [show ('[').toNat = 91 from rfl]; omega)
  · exact char_ne_of_toNat c '"' (by rw [show ('"').toNat = 34 from rfl]; omega)
  · exact char_ne_of_toNat c 't' (by rw [show ('t').toNat = 116 from rfl]; omega)
  · exact char_ne_of_toNat c 'f' (by rw [show ('f').toNat = 102 from rfl]; omega)
  · exact char_ne_of_toNat c 'n' (by rw [show ('n').toNat = 110 from rfl]; omega)
  · exact char_ne_of_toNat c ']' (by rw [show (']').toNat = 93 from rfl]; omega)

theorem parseVal_other (f : Nat) (c : Char) (r : List Char)
    (h0 : isJsWs c = false) (h1 : c ≠ '\x7b') (h2 : c ≠ '[') (h3 : c ≠ '"')
    (h4 : c ≠ 't') (h5 : c ≠ 'f') (h6 : c ≠ 'n') :
    parseVal (f + 1) (c :: r) = parseJNum (c :: r) := by
  simp only [parseVal]
  rw [skipWs_cons c r h0]
  split <;> first | rfl | simp_all

theorem parseVal_quote (f : Nat) (r : List Char) :
    parseVal (f + 1) ('"' :: r) =
      (parseStringBody (r.length + 1) r).map (fun p => (JSVal.str ⟨p.1⟩, p.2)) := by
  with_unfolding_all rfl

theorem parseVal_true (f : Nat) (r : List Char) :
    parseVal (f + 1) ('t' :: r) =
      if r.take 3 = ['r', 'u', 'e'] then some (JSVal.bool true, r.drop 3)
      else none := by
  with_unfolding_all rfl

theorem parseVal_false (f : Nat) (r : List Char) :
    parseVal (f + 1) ('f' :: r) =
      if r.take 4 = ['a', 'l', 's', 'e'] then some (JSVal.bool false, r.drop 4)
      else none := by
  with_unfolding_all rfl

theorem parseVal_null (f : Nat) (r : List Char) :
    parseVal (f + 1) ('n' :: r) =
      if r.take 3 = ['u', 'l', 'l'] then some (JSVal.null, r.drop 3)
      else none := by
  with_unfolding_all rfl

theorem parseVal_obj (f : Nat) (r : List Char) :
    parseVal (f + 1) ('\x7b' :: r) =
      if (skipWs r).head? = some '\x7d' then some (JSVal.obj [], (skipWs r).tail)
      else (parseFieldsWith (fun cs2 => parseVal f cs2) f (skipWs r)).map
        (fun p => (JSVal.obj p.1, p.2)) := by
  with_unfolding_all rfl

theorem parseVal_arr (f : Nat) (r : List Char) :
    parseVal (f + 1) ('[' :: r) =
      if (skipWs r).head? = some ']' then some (JSVal.arr [], (skipWs r).tail)
      else (parseElemsWith (fun cs2 => parseVal f cs2) f (skipWs r)).map
        (fun p => (JSVal.arr p.1, p.2)) := by
  with_unfolding_all rfl

theorem parseFields_step (pv : List Char → Option (JSVal × List Char))
    (fl : Nat) (R : List Char) :
    parseFieldsWith pv (fl + 1) ('"' :: R) =
      (parseStringBody (R.length + 1) R).bind (fun kp =>
        match skipWs kp.2 with
        | ':' :: r2 =>
          (pv r2).bind (fun p =>
            match skipWs p.2 with
            | ',' :: r3 =>
              (parseFieldsWith pv fl r3).map (fun q => ((⟨kp.1⟩, p.1) :: q.1, q.2))
            | '\x7d' :: r3 => some ([(⟨kp.1⟩, p.1)], r3)
            | _ => none)
        | _ => none) := by
  with_unfolding_all rfl

theorem intercalate_single (s a : List Char) : List.intercalate s [a] = a := by
  simp [List.intercalate]

theorem intercalate_cons2 (s a b : List Char) (l : List (List Char)) :
    List.intercalate s (a :: b :: l) =
      a ++ (s ++ List.intercalate s (b :: l)) := by
  simp [List.intercalate, List.intersperse_cons_cons]

theorem parseFields_member_last (fv fl : Nat) (kd body rest : List Char) (v : JSVal)
    (hp : parseVal fv (body ++ '\x7d' :: rest) = some (v, '\x7d' :: rest)) :
    parseFieldsWith (fun cs2 => parseVal fv cs2) (fl + 1)
      ('"' :: (quoteChars kd ++ '"' :: ':' :: (body ++ '\x7d' :: rest))) =
      some ([(⟨kd⟩, v)], rest) := by
  rw [parseFields_step]
  rw [parseStringBody_rt kd (':' :: (body ++ '\x7d' :: rest)) _
    (by rw [List.length_append]; omega)]
  show (parseVal fv (body ++ '\x7d' :: rest)).bind (fun p =>
    match skipWs p.2 with
    | ',' :: r3 => (parseFieldsWith (fun cs2 => parseVal fv cs2) fl r3).map
        (fun q => (((⟨kd⟩ : String), p.1) :: q.1, q.2))
    | '\x7d' :: r3 => some ([((⟨kd⟩ : String), p.1)], r3)
    | _ => none) = some ([(⟨kd⟩, v)], rest)
  rw [hp]
  with_unfolding_all rfl

theorem parseFields_member_comma (fv fl : Nat) (kd body R : List Char) (v : JSVal)
    (hp : parseVal fv (body ++ ',' :: R) = some (v, ',' :: R)) :
    parseFieldsWith (fun cs2 => parseVal fv cs2) (fl + 1)
      ('"' :: (quoteChars kd ++ '"' :: ':' :: (body ++ ',' :: R))) =
      (parseFieldsWith (fun cs2 => parseVal fv cs2) fl R).map
        (fun q => ((⟨kd⟩, v) :: q.1, q.2)) := by
  rw [parseFields_step]
  rw [parseStringBody_rt kd (':' :: (body ++ ',' :: R)) _
    (by rw [List.length_append]; omega)]
  show (parseVal fv (body ++ ',' :: R)).bind (fun p =>
    match skipWs p.2 with
    | ',' :: r3 => (parseFieldsWith (fun cs2 => parseVal fv cs2) fl r3).map
        (fun q => (((⟨kd⟩ : String), p.1) :: q.1, q.2))
    | '\x7d' :: r3 => some ([((⟨kd⟩ : String), p.1)], r3)
    | _ => none) = (parseFieldsWith (fun cs2 => parseVal fv cs2) fl R).map
        (fun q => ((⟨kd⟩, v) :: q.1, q.2))
  rw [hp]
  with_unfolding_all rfl

theorem elems_member_comma (fv fl : Nat) (body R : List Char) (x : JSVal)
    (hp : parseVal fv (body ++ ',' :: R) = some (x, ',' :: R)) :
    parseElemsWith (fun cs2 => parseVal fv cs2) (fl + 1) (body ++ ',' :: R) =
      (parseElemsWith (fun cs2 => parseVal fv cs2) fl R).map
        (fun q => (x :: q.1, q.2)) := by
  simp only [parseElemsWith]
  rw [hp]
  with_unfolding_all rfl

theorem elems_member_last (fv fl : Nat) (body rest : List Char) (x : JSVal)
    (hp : parseVal fv (body ++ ']' :: rest) = some (x, ']' :: rest)) :
    parseElemsWith (fun cs2 => parseVal fv cs2) (fl + 1) (body ++ ']' :: rest) =
      some ([x], rest) := by
  simp only [parseElemsWith]
  rw [hp]
  with_unfolding_all rfl

/-- The element loop of the array round trip: emitting each element of a
non-empty list and joining with commas yields a text that
`parseElemsWith` (with the closing bracket appended) parses back to the
same elements. -/
theorem parseElems_loop (g : Nat) :
    ∀ (xs : List JSVal), xs ≠ [] →
      (∀ x ∈ xs, ∃ cs, emitValF g x = some cs ∧ countV x ≤ cs.length ∧
        (∃ c t2, cs = c :: t2 ∧ isJsWs c = false ∧ c ≠ ']') ∧
        (∀ fp rest, countV x ≤ fp → restSafe rest →
          parseVal fp (cs ++ rest) = some (x, rest))) →
      ∃ ls, xs.mapM (fun x => emitValF g x) = some ls ∧ ls ≠ [] ∧
        countElems xs ≤ (List.intercalate [','] ls).length + 1 ∧
        (∃ c t2, List.intercalate [','] ls = c :: t2 ∧ isJsWs c = false ∧
          c ≠ ']') ∧
        ∀ floop fv rest, countElems xs ≤ floop → (∀ x ∈ xs, countV x ≤ fv) →
          restSafe rest →
          parseElemsWith (fun cs2 => parseVal fv cs2) floop
            (List.intercalate [','] ls ++ ']' :: rest) = some (xs, rest) := by
  intro xs
  induction xs with
  | nil => intro hne; exact absurd rfl hne
  | cons x t ih =>
    intro _ H
    obtain ⟨cs, hemit, hlen, ⟨c0, t0, hcs, hws, hnb⟩, hp⟩ := H x (by simp)
    cases t with
    | nil =>
      refine ⟨[cs], ?_, by simp, ?_, ?_, ?_⟩
      · rw [List.mapM_cons, hemit, List.mapM_nil]
        rfl
      · rw [intercalate_single]
        rw [show countElems [x] = 1 + countV x + countElems ([] : List JSVal)
          from rfl, show countElems ([] : List JSVal) = 0 from rfl]
        omega
      · rw [intercalate_single]
        exact ⟨c0, t0, hcs, hws, hnb⟩
      · intro floop fv rest hfl hfv hrest
        rw [show countElems [x] = 1 + countV x + countElems ([] : List JSVal)
          from rfl, show countElems ([] : List JSVal) = 0 from rfl] at hfl
        have hpos := countV_pos x
        obtain ⟨fl, rfl⟩ : ∃ fl, floop = fl + 1 := ⟨floop - 1, by omega⟩
        rw [intercalate_single]
        exact elems_member_last fv fl cs rest x
          (hp fv (']' :: rest) (hfv x (by simp)) (Or.inr (Or.inl rfl)))
    | cons y t2 =>
      obtain ⟨ls', hmapM, hlsne, hlen', ⟨c1, t1, hI, hws1, hnb1⟩, hloop'⟩ :=
        ih (by simp) (fun z hz => H z (by simp [hz]))
      obtain ⟨b, l', rfl⟩ : ∃ b l', ls' = b :: l' := by
        cases ls' with
        | nil => exact absurd rfl hlsne
        | cons b l' => exact ⟨b, l', rfl⟩
      refine ⟨cs :: b :: l', ?_, by simp, ?_, ?_, ?_⟩
      · rw [List.mapM_cons, hemit, hmapM]
        rfl
      · rw [intercalate_cons2]
        rw [show countElems (x :: y :: t2) =
          1 + countV x + countElems (y :: t2) from rfl]
        rw [List.length_append, List.length_append]
        rw [show ([','] : List Char).length = 1 from rfl]
        omega
      · rw [intercalate_cons2, hcs]
        exact ⟨c0, t0 ++ ([','] ++ List.intercalate [','] (b :: l')), rfl, hws, hnb⟩
      · intro floop fv rest hfl hfv hrest
        rw [show countElems (x :: y :: t2) =
          1 + countV x + countElems (y :: t2) from rfl] at hfl
        have hpos := countV_pos x
        obtain ⟨fl, rfl⟩ : ∃ fl, floop = fl + 1 := ⟨floop - 1, by omega⟩
        rw [intercalate_cons2, List.append_assoc]
        rw [show ([','] ++ List.intercalate [','] (b :: l')) ++ ']' :: rest =
          ',' :: (List.intercalate [','] (b :: l') ++ ']' :: rest) from rfl]
        rw [elems_member_comma fv fl cs
          (List.intercalate [','] (b :: l') ++ ']' :: rest) x
          (hp fv (',' :: (List.intercalate [','] (b :: l') ++ ']' :: rest))
            (hfv x (by simp)) (Or.inl rfl))]
        rw [hloop' fl fv rest (by omega) (fun z hz => hfv z (by simp [hz])) hrest]
        rfl

/-- The member loop of the object round trip: emitting each member of a
non-empty field list as `"key":value` and joining with commas yields a
text that `parseFieldsWith` (with the closing brace appended) parses back
to the same members. -/
theorem parseFields_loop (g : Nat) :
    ∀ (fs : List (String × JSVal)), fs ≠ [] →
      (∀ kv ∈ fs, ∃ cs, emitValF g kv.2 = some cs ∧ countV kv.2 ≤ cs.length ∧
        (∀ fp rest, countV kv.2 ≤ fp → restSafe rest →
          parseVal fp (cs ++ rest) = some (kv.2, rest))) →
      ∃ ls, fs.mapM (fun (kv : String × JSVal) => (emitValF g kv.2).map
          (fun b => '"' :: (quoteChars kv.1.data ++ '"' :: ':' :: b))) = some ls ∧
        ls ≠ [] ∧
        countFields fs ≤ (List.intercalate [','] ls).length + 1 ∧
        (List.intercalate [','] ls).head? = some '"' ∧
        ∀ floop fv rest, countFields fs ≤ floop →
          (∀ kv ∈ fs, countV kv.2 ≤ fv) → restSafe rest →
          parseFieldsWith (fun cs2 => parseVal fv cs2) floop
            (List.intercalate [','] ls ++ '\x7d' :: rest) = some (fs, rest) := by
  intro fs
  induction fs with
  | nil => intro hne; exact absurd rfl hne
  | cons kv t ih =>
    obtain ⟨k, v⟩ := kv
    intro _ H
    obtain ⟨cs, hemit0, hlen0, hp0⟩ := H (k, v) (by simp)
    have hemit : emitValF g v = some cs := hemit0
    have hlen : countV v ≤ cs.length := hlen0
    have hp : ∀ fp rest, countV v ≤ fp → restSafe rest →
        parseVal fp (cs ++ rest) = some (v, rest) := hp0
    cases t with
    | nil =>
      refine ⟨['"' :: (quoteChars k.data ++ '"' :: ':' :: cs)], ?_, by simp,
        ?_, ?_, ?_⟩
      · simp only [List.mapM_cons, List.mapM_nil]
        rw [show emitValF g ((k, v) : String × JSVal).2 = some cs from hemit]
        rfl
      · rw [intercalate_single]
        rw [show countFields [(k, v)] =
          1 + countV v + countFields ([] : List (String × JSVal)) from rfl,
          show countFields ([] : List (String × JSVal)) = 0 from rfl]
        rw [show ('"' :: (quoteChars k.data ++ '"' :: ':' :: cs)).length =
          (quoteChars k.data ++ '"' :: ':' :: cs).length + 1 from rfl]
        rw [List.length_append]
        rw [show ('"' :: ':' :: cs).length = cs.length + 2 from rfl]
        omega
      · rw [intercalate_single]
        rfl
      · intro floop fv rest hfl hfv hrest
        rw [show countFields [(k, v)] =
          1 + countV v + countFields ([] : List (String × JSVal)) from rfl,
          show countFields ([] : List (String × JSVal)) = 0 from rfl] at hfl
        have hpos := countV_pos v
        obtain ⟨fl, rfl⟩ : ∃ fl, floop = fl + 1 := ⟨floop - 1, by omega⟩
        rw [intercalate_single]
        simp only [List.cons_append, List.append_assoc]
        rw [parseFields_member_last fv fl k.data cs rest v
          (hp fv ('\x7d' :: rest) (hfv (k, v) (by simp)) (Or.inr (Or.inr rfl)))]
    | cons kv2 t2 =>
      obtain ⟨ls', hmapM, hlsne, hlen', hhead', hloop'⟩ :=
        ih (by simp) (fun z hz => H z (by simp [hz]))
      obtain ⟨b, l', rfl⟩ : ∃ b l', ls' = b :: l' := by
        cases ls' with
        | nil => exact absurd rfl hlsne
        | cons b l' => exact ⟨b, l', rfl⟩
      refine ⟨('"' :: (quoteChars k.data ++ '"' :: ':' :: cs)) :: b :: l', ?_,
        by simp, ?_, ?_, ?_⟩
      · simp only [List.mapM_cons, hemit, hmapM, Option.map_some']
        rfl
      · rw [intercalate_cons2]
        rw [show countFields ((k, v) :: kv2 :: t2) =
          1 + countV v + countFields (kv2 :: t2) from rfl]
        rw [List.length_append, List.length_append]
        rw [show ('"' :: (quoteChars k.data ++ '"' :: ':' :: cs)).length =
          (quoteChars k.data ++ '"' :: ':' :: cs).length + 1 from rfl]
        rw [List.length_append]
        rw [show ('"' :: ':' :: cs).length = cs.length + 2 from rfl]
        rw [show ([','] : List Char).length = 1 from rfl]
        omega
      · rw [intercalate_cons2]
        rfl
      · intro floop fv rest hfl hfv hrest
        rw [show countFields ((k, v) :: kv2 :: t2) =
          1 + countV v + countFields (kv2 :: t2) from rfl] at hfl
        have hpos := countV_pos v
        obtain ⟨fl, rfl⟩ : ∃ fl, floop = fl + 1 := ⟨floop - 1, by omega⟩
        rw [intercalate_cons2]
        simp only [List.cons_append, List.append_assoc, List.nil_append]
        rw [parseFields_member_comma fv fl k.data cs
          (List.intercalate [','] (b :: l') ++ '\x7d' :: rest) v
          (hp fv (',' :: (List.intercalate [','] (b :: l') ++ '\x7d' :: rest))
            (hfv (k, v) (by simp)) (Or.inl rfl))]
        rw [hloop' fl fv rest (by omega) (fun z hz => hfv z (by simp [hz])) hrest]
        rfl

theorem jsonNativeList_mem :
    ∀ xs, jsonNativeList xs = true → ∀ x ∈ xs, jsonNative x = true := by
  intro xs
  induction xs with
  | nil => intro _ x hx; exact absurd hx (by simp)
  | cons a t ihl =>
    intro h x hx
    simp only [jsonNativeList, Bool.and_eq_true] at h
    rcases List.mem_cons.mp hx with rfl | hmem
    · exact h.1
    · exact ihl h.2 x hmem

theorem jsonNativeFields_mem :
    ∀ fs, jsonNativeFields fs = true → ∀ kv ∈ fs, jsonNative kv.2 = true := by
  intro fs
  induction fs with
  | nil => intro _ kv hkv; exact absurd hkv (by simp)
  | cons a t ihl =>
    intro h kv hkv
    obtain ⟨k0, v0⟩ := a
    simp only [jsonNativeFields, Bool.and_eq_true] at h
    rcases List.mem_cons.mp hkv with rfl | hmem
    · exact h.1
    · exact ihl h.2 kv hmem

/-- The JSON round trip on the emitter side: a JSON-native value tree emits
(at sufficient fuel) a text that `parseVal` parses back to the same tree,
before any continuation whose head cannot extend the value's final token.
The text is at least `countV v` long and starts with a character that is
neither whitespace nor a closing bracket, which lets enclosing composites
chain these parses. -/
theorem emit_parse_rt :
    ∀ (fe : Nat) (v : JSVal), jsonNative v = true → countV v ≤ fe →
      ∃ cs, emitValF fe v = some cs ∧ countV v ≤ cs.length ∧
        (∃ c t2, cs = c :: t2 ∧ isJsWs c = false ∧ c ≠ ']') ∧
        ∀ fp rest, countV v ≤ fp → restSafe rest →
          parseVal fp (cs ++ rest) = some (v, rest) := by
  intro fe
  induction fe with
  | zero => intro v _ h; have := countV_pos v; omega
  | succ g ih =>
    intro v hnat hc
    cases v with
    | nan => exact absurd hnat (by simp [jsonNative])
    | bigint i => exact absurd hnat (by simp [jsonNative])
    | date ms => exact absurd hnat (by simp [jsonNative])
    | regexp s fl => exact absurd hnat (by simp [jsonNative])
    | jsMap es => exact absurd hnat (by simp [jsonNative])
    | jsSet es => exact absurd hnat (by simp [jsonNative])
    | num n =>
      have hDne : natDigits 10 n.natAbs ≠ [] := natDigitsF_ne_nil n.natAbs n.natAbs
      obtain ⟨d0, dt, hD⟩ : ∃ d0 dt, natDigits 10 n.natAbs = d0 :: dt := by
        cases hcase : natDigits 10 n.natAbs with
        | nil => exact absurd hcase hDne
        | cons a b => exact ⟨a, b, rfl⟩
      have hd0 : isDigitB 10 d0 = true := by
        refine natDigitsF_all_digits n.natAbs n.natAbs le_rfl d0 ?_
        rw [show natDigitsF n.natAbs 10 n.natAbs = natDigits 10 n.natAbs from rfl,
          hD]
        simp
      obtain ⟨hws0, hbrace0, hbrk0, hq0, ht0, hf0, hn0, hrb0⟩ :=
        digitB_head_facts d0 hd0
      refine ⟨intToDecimal n, rfl, ?_, ?_, ?_⟩
      · rw [show countV (JSVal.num n) = 1 from rfl]
        unfold intToDecimal
        split
        · simp
        · rw [hD]
          simp
      · unfold intToDecimal
        split
        · exact ⟨'-', natDigits 10 n.natAbs, rfl, by decide, by decide⟩
        · exact ⟨d0, dt, hD, hws0, hrb0⟩
      · intro fp rest hfp hrest
        rw [show countV (JSVal.num n) = 1 from rfl] at hfp
        obtain ⟨fp2, rfl⟩ : ∃ q, fp = q + 1 := ⟨fp - 1, by omega⟩
        have hjnum := parseJNum_rt n rest hrest
        by_cases hneg : n < 0
        · rw [show intToDecimal n = '-' :: natDigits 10 n.natAbs from by
            unfold intToDecimal; rw [if_pos hneg]]
          rw [show ('-' :: natDigits 10 n.natAbs) ++ rest =
            '-' :: (natDigits 10 n.natAbs ++ rest) from rfl]
          rw [parseVal_other fp2 '-' _ (by decide) (by decide) (by decide)
            (by decide) (by decide) (by decide) (by decide)]
          rw [show '-' :: (natDigits 10 n.natAbs ++ rest) =
            intToDecimal n ++ rest from by
            unfold intToDecimal; rw [if_pos hneg]; rfl]
          exact hjnum
        · rw [show intToDecimal n = natDigits 10 n.natAbs from by
            unfold intToDecimal; rw [if_neg hneg]]
          rw [hD]
          rw [show (d0 :: dt) ++ rest = d0 :: (dt ++ rest) from rfl]
          rw [parseVal_other fp2 d0 _ hws0 hbrace0 hbrk0 hq0 ht0 hf0 hn0]
          rw [show d0 :: (dt ++ rest) = intToDecimal n ++ rest from by
            unfold intToDecimal; rw [if_neg hneg, hD]; rfl]
          exact hjnum
    | str s =>
      refine ⟨'"' :: (quoteChars s.data ++ ['"']), rfl, ?_, ?_, ?_⟩
      · rw [show countV (JSVal.str s) = 1 from rfl]
        simp
      · exact ⟨'"', quoteChars s.data ++ ['"'], rfl, by decide, by decide⟩
      · intro fp rest hfp hrest
        rw [show countV (JSVal.str s) = 1 from rfl] at hfp
        obtain ⟨fp2, rfl⟩ : ∃ q, fp = q + 1 := ⟨fp - 1, by omega⟩
        rw [show ('"' :: (quoteChars s.data ++ ['"'])) ++ rest =
          '"' :: (quoteChars s.data ++ '"' :: rest) from by
          simp [List.cons_append, List.append_assoc]]
        rw [parseVal_quote fp2 (quoteChars s.data ++ '"' :: rest)]
        rw [parseStringBody_rt s.data rest _ (by rw [List.length_append]; omega)]
        rfl
    | bool b =>
      cases b with
      | true =>
        refine ⟨['t', 'r', 'u', 'e'], rfl, ?_, ?_, ?_⟩
        · rw [show countV (JSVal.bool true) = 1 from rfl]
          simp
        · exact ⟨'t', ['r', 'u', 'e'], rfl, by decide, by decide⟩
        · intro fp rest hfp hrest
          rw [show countV (JSVal.bool true) = 1 from rfl] at hfp
          obtain ⟨fp2, rfl⟩ : ∃ q, fp = q + 1 := ⟨fp - 1, by omega⟩
          with_unfolding_all rfl
      | false =>
        refine ⟨['f', 'a', 'l', 's', 'e'], rfl, ?_, ?_, ?_⟩
        · rw [show countV (JSVal.bool false) = 1 from rfl]
          simp
        · exact ⟨'f', ['a', 'l', 's', 'e'], rfl, by decide, by decide⟩
        · intro fp rest hfp hrest
          rw [show countV (JSVal.bool false) = 1 from rfl] at hfp
          obtain ⟨fp2, rfl⟩ : ∃ q, fp = q + 1 := ⟨fp - 1, by omega⟩
          with_unfolding_all rfl
    | null =>
      refine ⟨['n', 'u', 'l', 'l'], rfl, ?_, ?_, ?_⟩
      · rw [show countV JSVal.null = 1 from rfl]
        simp
      · exact ⟨'n', ['u', 'l', 'l'], rfl, by decide, by decide⟩
      · intro fp rest hfp hrest
        rw [show countV JSVal.null = 1 from rfl] at hfp
        obtain ⟨fp2, rfl⟩ : ∃ q, fp = q + 1 := ⟨fp - 1, by omega⟩
        with_unfolding_all rfl
    | arr xs =>
      cases xs with
      | nil =>
        refine ⟨['[', ']'], rfl, ?_, ?_, ?_⟩
        · rw [show countV (JSVal.arr []) = 1 from rfl]
          simp
        · exact ⟨'[', [']'], rfl, by decide, by decide⟩
        · intro fp rest hfp hrest
          rw [show countV (JSVal.arr []) = 1 from rfl] at hfp
          obtain ⟨fp2, rfl⟩ : ∃ q, fp = q + 1 := ⟨fp - 1, by omega⟩
          with_unfolding_all rfl
      | cons x t =>
        simp only [jsonNative] at hnat
        have hcnt : countV (JSVal.arr (x :: t)) = 1 + countElems (x :: t) := rfl
        have Hel : ∀ z ∈ x :: t, ∃ cs, emitValF g z = some cs ∧
            countV z ≤ cs.length ∧
            (∃ c t2, cs = c :: t2 ∧ isJsWs c = false ∧ c ≠ ']') ∧
            ∀ fp rest, countV z ≤ fp → restSafe rest →
              parseVal fp (cs ++ rest) = some (z, rest) := by
          intro z hz
          refine ih z (jsonNativeList_mem (x :: t) hnat z hz) ?_
          have := countV_lt_countElems (x :: t) z hz
          omega
        obtain ⟨ls, hmapM, hlsne, hIlen, ⟨c1, t1, hI, hws1, hnb1⟩, hloop⟩ :=
          parseElems_loop g (x :: t) (by simp) Hel
        refine ⟨'[' :: (List.intercalate [','] ls ++ [']']), ?_, ?_, ?_, ?_⟩
        · rw [show emitValF (g + 1) (JSVal.arr (x :: t)) =
            ((x :: t).mapM (fun z => emitValF g z)).map
              (fun l0 => '[' :: (List.intercalate [','] l0 ++ [']'])) from rfl,
            hmapM]
          rfl
        · rw [hcnt]
          simp only [List.length_cons, List.length_append, List.length_nil]
          omega
        · exact ⟨'[', List.intercalate [','] ls ++ [']'], rfl, by decide,
            by decide⟩
        · intro fp rest hfp hrest
          rw [hcnt] at hfp
          obtain ⟨fp2, rfl⟩ : ∃ q, fp = q + 1 := ⟨fp - 1, by omega⟩
          rw [show ('[' :: (List.intercalate [','] ls ++ [']'])) ++ rest =
            '[' :: (List.intercalate [','] ls ++ ']' :: rest) from by
            simp [List.cons_append, List.append_assoc]]
          rw [parseVal_arr fp2 (List.intercalate [','] ls ++ ']' :: rest)]
          have hloop2 := hloop fp2 fp2 rest (by omega)
            (fun z hz => by have := countV_lt_countElems (x :: t) z hz; omega)
            hrest
          rw [hI]
          rw [show (c1 :: t1) ++ ']' :: rest = c1 :: (t1 ++ ']' :: rest) from rfl]
          rw [skipWs_cons c1 _ hws1]
          rw [if_neg (by simp [hnb1])]
          rw [hI] at hloop2
          rw [show (c1 :: t1) ++ ']' :: rest = c1 :: (t1 ++ ']' :: rest) from rfl]
            at hloop2
          rw [hloop2]
          rfl
    | obj fs =>
      cases fs with
      | nil =>
        refine ⟨['\x7b', '\x7d'], rfl, ?_, ?_, ?_⟩
        · rw [show countV (JSVal.obj []) = 1 from rfl]
          simp
        · exact ⟨'\x7b', ['\x7d'], rfl, by decide, by decide⟩
        · intro fp rest hfp hrest
          rw [show countV (JSVal.obj []) = 1 from rfl] at hfp
          obtain ⟨fp2, rfl⟩ : ∃ q, fp = q + 1 := ⟨fp - 1, by omega⟩
          with_unfolding_all rfl
      | cons kv t =>
        simp only [jsonNative] at hnat
        have hcnt : countV (JSVal.obj (kv :: t)) = 1 + countFields (kv :: t) := rfl
        have Hfl : ∀ kv3 ∈ kv :: t, ∃ cs, emitValF g kv3.2 = some cs ∧
            countV kv3.2 ≤ cs.length ∧
            ∀ fp rest, countV kv3.2 ≤ fp → restSafe rest →
              parseVal fp (cs ++ rest) = some (kv3.2, rest) := by
          intro kv3 hkv3
          obtain ⟨cs, h1, h2, _, h4⟩ := ih kv3.2
            (jsonNativeFields_mem (kv :: t) hnat kv3 hkv3)
            (by have := countV_lt_countFields (kv :: t) kv3 hkv3; omega)
          exact ⟨cs, h1, h2, h4⟩
        obtain ⟨ls, hmapM, hlsne, hIlen, hIhead, hloop⟩ :=
          parseFields_loop g (kv :: t) (by simp) Hfl
        obtain ⟨c1, t1, hI, hc1⟩ : ∃ c1 t1,
            List.intercalate [','] ls = c1 :: t1 ∧ c1 = '"' := by
          cases hcase : List.intercalate [','] ls with
          | nil => rw [hcase] at hIhead; exact absurd hIhead (by simp)
          | cons a b =>
            rw [hcase] at hIhead
            simp only [List.head?_cons, Option.some.injEq] at hIhead
            exact ⟨a, b, rfl, hIhead⟩
        subst hc1
        refine ⟨'\x7b' :: (List.intercalate [','] ls ++ ['\x7d']), ?_, ?_, ?_, ?_⟩
        · rw [show emitValF (g + 1) (JSVal.obj (kv :: t)) =
            ((kv :: t).mapM (fun (kv2 : String × JSVal) => (emitValF g kv2.2).map
              (fun b => '"' :: (quoteChars kv2.1.data ++ '"' :: ':' :: b)))).map
              (fun l0 => '\x7b' :: (List.intercalate [','] l0 ++ ['\x7d']))
            from rfl, hmapM]
          rfl
        · rw [hcnt]
          simp only [List.length_cons, List.length_append, List.length_nil]
          omega
        · exact ⟨'\x7b', List.intercalate [','] ls ++ ['\x7d'], rfl, by decide,
            by decide⟩
        · intro fp rest hfp hrest
          rw [hcnt] at hfp
          obtain ⟨fp2, rfl⟩ : ∃ q, fp = q + 1 := ⟨fp - 1, by omega⟩
          rw [show ('\x7b' :: (List.intercalate [','] ls ++ ['\x7d'])) ++ rest =
            '\x7b' :: (List.intercalate [','] ls ++ '\x7d' :: rest) from by
            simp [List.cons_append, List.append_assoc]]
          rw [parseVal_obj fp2 (List.intercalate [','] ls ++ '\x7d' :: rest)]
          have hloop2 := hloop fp2 fp2 rest (by omega)
            (fun kv3 hkv3 => by
              have := countV_lt_countFields (kv :: t) kv3 hkv3; omega)
            hrest
          rw [hI]
          rw [show ('"' :: t1) ++ '\x7d' :: rest =
            '"' :: (t1 ++ '\x7d' :: rest) from rfl]
          rw [skipWs_cons '"' _ (by decide)]
          rw [if_neg (by simp)]
          rw [hI] at hloop2
          rw [show ('"' :: t1) ++ '\x7d' :: rest =
            '"' :: (t1 ++ '\x7d' :: rest) from rfl] at hloop2
          rw [hloop2]
          rfl

/-- C3 (corrected): with the registries in their initial empty state,
`TJSON.parse(TJSON.stringify(v))` returns a value equal to `v` for every
acyclic value tree built only from JSON-native scalars (numbers, strings,
booleans, `null`) and objects/arrays.  The spec's unrestricted claim fails
once the standard codecs are active (see the counterexample theorem):
`{ x: 0 }` comes back as `{ x: "(00)0" }` because the number reviver's
result `0` is falsy. -/
theorem C3_empty_registry_round_trip (v : JSVal) (h : jsonNative v = true) :
    ∃ s, stringifyWith [] v = some s ∧ parseWith [] s = some v := by
  obtain ⟨cs, hemit, hlen, _, hparse⟩ := emit_parse_rt (countV v) v h le_rfl
  have hpv : parseVal (cs.length + 1) (cs ++ []) = some (v, []) :=
    hparse (cs.length + 1) [] (by omega) trivial
  rw [List.append_nil] at hpv
  refine ⟨⟨cs⟩, ?_, ?_⟩
  · show (encodeTreeF (countV v) [] v).bind
      (fun w => (emitValF (countV v) w).map (fun l => (⟨l⟩ : String))) =
      some ⟨cs⟩
    rw [encodeTreeF_nil (countV v) v le_rfl]
    show (emitValF (countV v) v).map (fun l => (⟨l⟩ : String)) = some ⟨cs⟩
    rw [hemit]
    rfl
  · have hjp : jsonParse ⟨cs⟩ = some v := by
      unfold jsonParse
      rw [show (⟨cs⟩ : String).length = cs.length from rfl,
        show (⟨cs⟩ : String).data = cs from rfl]
      rw [hpv]
      with_unfolding_all rfl
    show (jsonParse ⟨cs⟩).bind
      (decodeTreeF ((⟨cs⟩ : String).length + 1) []) = some v
    rw [hjp]
    show decodeTreeF ((⟨cs⟩ : String).length + 1) [] v = some v
    exact decodeTreeF_nil _ v
      (by rw [show (⟨cs⟩ : String).length = cs.length from rfl]; omega)

/-- A JSON-native demonstration tree: nested objects, an array, all four
native scalar kinds. -/
def demoNative : JSVal :=
  .obj [("alias", .str "iljucha"), ("age", .num 27),
    ("arr", .arr [.str "a", .num 0, .bool true, .null]),
    ("o", .obj [("neg", .num (-3))])]

theorem C3_witness :
    jsonNative demoNative = true ∧
    ∃ s, stringifyWith [] demoNative = some s ∧
      parseWith [] s = some demoNative :=
  ⟨by simp [demoNative, jsonNative, jsonNativeFields, jsonNativeList],
   C3_empty_registry_round_trip demoNative
     (by simp [demoNative, jsonNative, jsonNativeFields, jsonNativeList])⟩

end TJSONModel
